import Mathlib

/-!
# Verification of the adeft candidate-mining trie engine (adeft/discover.py)

Shallow embedding of the core trie engine of `adeft.discover`:

* `_TrieNode` becomes the inductive type `TrieNode` (mutual with `Children`,
  an insertion-ordered association list mirroring a Python `dict` of
  children).  The `parent` back-pointer of the Python class is replaced by
  an explicit `isRoot : Bool` flag threaded through the operations, which is
  the only use the code makes of it (`is_root()` checks).
* Python `int` fields (`count`, `sum_ft`, `sum_ft2`) become `Int`.
  The root `_TrieNode` never assigns `count` (its `__init__` takes the
  `longform=()` branch), so `count` is modelled as `Option Int`: `none`
  models the unset slot whose access raises `AttributeError`.  The root
  also leaves `sum_ft`/`sum_ft2` unset; no modelled operation ever reads
  them on the root, so they are modelled as plain `Int` initialised to `0`.
* Python `float` score arithmetic is modelled exactly over `ℚ`; every
  score expression in the code is rational (`count - sum_ft2/sum_ft`).
* A Python `dict` is an insertion-ordered map: writing an existing key
  updates it in place, a new key is appended at the end.  `Children` and
  the flat `_longforms` association list follow those semantics.
* Imperative BFS loops whose result does not depend on visiting order
  (the child merge recursion of `update`, the `best_ancestor_score` pass)
  are written as structural recursion; the one place where the deque order
  is observable (`_propagate_scores` runs its descendant pass only from the
  last node popped) is modelled with an explicit BFS pop-order function.
-/

set_option maxHeartbeats 1000000

namespace Adeft

mutual

/-- Model of `adeft.discover._TrieNode`: `longform` (tokens in reverse
order), `count` (unset on the root, hence `Option`), the incremental
statistics `sum_ft`, `sum_ft2`, the likelihood `score`, the propagation
fields `best_ancestor_score` / `best_descendent_score`, and the
insertion-ordered children map. -/
inductive TrieNode : Type where
  | mk (longform : List String) (count : Option Int) (sum_ft sum_ft2 : Int)
       (score best_ancestor_score best_descendent_score : ℚ)
       (children : Children) : TrieNode

/-- Insertion-ordered association list of child nodes keyed by token,
modelling the Python `dict` stored in `_TrieNode.children`. -/
inductive Children : Type where
  | nil : Children
  | cons (token : String) (child : TrieNode) (rest : Children) : Children

end

namespace TrieNode

def longform : TrieNode → List String
  | .mk lf _ _ _ _ _ _ _ => lf

def count : TrieNode → Option Int
  | .mk _ c _ _ _ _ _ _ => c

/-- The count with the missing-slot default `0`; only ever used where the
Python code reads the count of a non-root node (always set). -/
def cntD (n : TrieNode) : Int := n.count.getD 0

def sum_ft : TrieNode → Int
  | .mk _ _ ft _ _ _ _ _ => ft

def sum_ft2 : TrieNode → Int
  | .mk _ _ _ ft2 _ _ _ _ => ft2

def score : TrieNode → ℚ
  | .mk _ _ _ _ s _ _ _ => s

def best_ancestor_score : TrieNode → ℚ
  | .mk _ _ _ _ _ b _ _ => b

def best_descendent_score : TrieNode → ℚ
  | .mk _ _ _ _ _ _ b _ => b

def children : TrieNode → Children
  | .mk _ _ _ _ _ _ _ cs => cs

def setChildren : TrieNode → Children → TrieNode
  | .mk lf c ft ft2 s ba bd _, cs => .mk lf c ft ft2 s ba bd cs

def setBas : TrieNode → ℚ → TrieNode
  | .mk lf c ft ft2 s _ bd cs, b => .mk lf c ft ft2 s b bd cs

def setBds : TrieNode → ℚ → TrieNode
  | .mk lf c ft ft2 s ba _ cs, b => .mk lf c ft ft2 s ba b cs

/-- The `__init__` branch for a node created with a non-empty `longform`:
`count = 1`, `sum_ft = sum_ft2 = 0`, `score = 1`; propagation fields at
their `-1` sentinels; no children. -/
def new (lf : List String) : TrieNode :=
  .mk lf (some 1) 0 0 1 (-1) (-1) .nil

end TrieNode

/-- The `__init__` branch for the root (`longform = ()`): `count` is never
assigned (modelled `none`), `score = -1`, `sum_ft`/`sum_ft2` unset in
Python but never read on the root (modelled `0`). -/
def rootNode : TrieNode :=
  .mk [] none 0 0 (-1) (-1) (-1) .nil

namespace Children

/-- Python `token in current.children` / `current.children[token]`:
first-match lookup (keys are unique in a `dict`). -/
def lookup (tk : String) : Children → Option TrieNode
  | .nil => none
  | .cons t c rest => if t = tk then some c else lookup tk rest

def hasKey (tk : String) (cs : Children) : Bool :=
  (cs.lookup tk).isSome

/-- Writing an existing key of a Python dict: replace the first matching
entry in place, preserving insertion order. -/
def replace (tk : String) (v : TrieNode) : Children → Children
  | .nil => .nil
  | .cons t c rest =>
      if t = tk then .cons t v rest else .cons t c (replace tk v rest)

/-- Writing a fresh key of a Python dict: append at the end. -/
def snoc (cs : Children) (tk : String) (v : TrieNode) : Children :=
  match cs with
  | .nil => .cons tk v .nil
  | .cons t c rest => .cons t c (snoc rest tk v)

/-- Sum of the children's `count` fields. -/
def sumCnt : Children → Int
  | .nil => 0
  | .cons _ c rest => c.cntD + sumCnt rest

/-- Sum of the squares of the children's `count` fields. -/
def sumCnt2 : Children → Int
  | .nil => 0
  | .cons _ c rest => c.cntD * c.cntD + sumCnt2 rest

end Children

namespace TrieNode

/-- `_TrieNode.increment_count(increment)`: `count += increment`,
`score += increment`. -/
def increment_count (n : TrieNode) (increment : Int) : TrieNode :=
  match n with
  | .mk lf c ft ft2 s ba bd cs =>
      .mk lf (c.map (· + increment)) ft ft2 (s + (increment : ℚ)) ba bd cs

/-- The `sum_ft2/sum_ft if sum_ft else 0` expressions of
`update_likelihood`. -/
def ratioTerm (ft ft2 : Int) : ℚ :=
  if ft = 0 then 0 else (ft2 : ℚ) / (ft : ℚ)

/-- `_TrieNode.update_likelihood(count, increment)`:
`score += sum_ft2/sum_ft if sum_ft else 0`; `sum_ft += increment`;
`sum_ft2 += 2*count*increment - increment**2`; `score -= sum_ft2/sum_ft`. -/
def update_likelihood (n : TrieNode) (count increment : Int) : TrieNode :=
  match n with
  | .mk lf c ft ft2 s ba bd cs =>
      .mk lf c (ft + increment) (ft2 + 2 * count * increment - increment ^ 2)
        (s + ratioTerm ft ft2
           - ratioTerm (ft + increment) (ft2 + 2 * count * increment - increment ^ 2))
        ba bd cs

end TrieNode

/-- The trie walk of `AdeftMiner._add` after stemming and reversal: `ts` is
the already-stemmed token tuple in reverse order.  At each step the current
node either gains a fresh child (`count=1`, `score=1`) or increments the
existing child, and — unless it is the root — has its own likelihood
updated for the child's new count.  The recursion descends into the
(already updated) child with the remaining tokens, exactly as the loop
advances `current`. -/
def addTokens (isRoot : Bool) (n : TrieNode) : List String → TrieNode
  | [] => n
  | t :: rest =>
      match n.children.lookup t with
      | none =>
          let child := addTokens false (TrieNode.new (n.longform ++ [t])) rest
          let n1 := if isRoot then n else n.update_likelihood 1 1
          n1.setChildren (n1.children.snoc t child)
      | some c =>
          let c1 := c.increment_count 1
          let n1 := if isRoot then n else n.update_likelihood c1.cntD 1
          n1.setChildren (n1.children.replace t (addTokens false c1 rest))

theorem TrieNode.sizeOf_children_lt (n : TrieNode) : sizeOf n.children < sizeOf n := by
  cases n with
  | mk lf c ft ft2 s ba bd cs => simp [TrieNode.children]

mutual

/-- One iteration of the child loop of `AdeftMiner.update`, merging the
entry `(tk, rchild)` of the right trie into `left`: a token absent from
`left.children` attaches the foreign subtree wholesale and (off the root)
applies a batch likelihood update with `Δ = rchild.count`; a shared token
increments the local child's count by `rchild.count`, updates `left`'s
likelihood, and recursively merges the two subtrees (the BFS queue of the
code processes disjoint subtree pairs, so recursing here is
order-equivalent). -/
def mergeStep (isRoot : Bool) (left : TrieNode) (tk : String) :
    TrieNode → TrieNode
  | rchild@(.mk _ _ _ _ _ _ _ rcs) =>
      match left.children.lookup tk with
      | none =>
          let l1 := left.setChildren (left.children.snoc tk rchild)
          if isRoot then l1 else l1.update_likelihood rchild.cntD rchild.cntD
      | some c =>
          let c1 := c.increment_count rchild.cntD
          let c2 := mergeFold false c1 rcs
          let l1 := left.setChildren (left.children.replace tk c2)
          if isRoot then l1 else l1.update_likelihood c1.cntD rchild.cntD

/-- Folds `mergeStep` over the right node's children in insertion order,
modelling the `for token, child in right.children.items()` loop. -/
def mergeFold (isRoot : Bool) (left : TrieNode) : Children → TrieNode
  | .nil => left
  | .cons tk rchild rest => mergeFold isRoot (mergeStep isRoot left tk rchild) rest

end

/-- The trie effect of `AdeftMiner.update(adeft_miner)`: merge the (deep
copy of the) right root's children into the left root. -/
def mergeNode (isRoot : Bool) (left right : TrieNode) : TrieNode :=
  mergeFold isRoot left right.children

/-- The `_longforms` dict: keys are the candidate token tuples in natural
(reading) order, i.e. `node.longform[::-1]`; values are latest scores. -/
abbrev Longforms : Type := List (List String × ℚ)

/-- A single `self._longforms[key] = value` dict write: update the first
matching key in place, or append a fresh key at the end. -/
def dictWrite : Longforms → List String → ℚ → Longforms
  | [], k, v => [(k, v)]
  | kv :: rest, k, v =>
      if kv.1 = k then (k, v) :: rest else kv :: dictWrite rest k v

def applyWrites (l : Longforms) (ws : List (List String × ℚ)) : Longforms :=
  ws.foldl (fun acc kv => dictWrite acc kv.1 kv.2) l

def hasKeyL (l : Longforms) (k : List String) : Bool :=
  l.any (fun kv => decide (kv.1 = k))

/-- The key under which a node is registered in `_longforms`:
`node.longform[::-1]`. -/
def TrieNode.lfrev (n : TrieNode) : List String := n.longform.reverse

/-- The `_longforms` writes performed by the `_add` walk, in program
order: on a fresh child the (non-root) parent is written after its
likelihood update and then the new child; on a repeat child the child is
written after its increment and then the (non-root) parent. -/
def addWrites (isRoot : Bool) (n : TrieNode) : List String → List (List String × ℚ)
  | [] => []
  | t :: rest =>
      match n.children.lookup t with
      | none =>
          (if isRoot then [] else [(n.lfrev, (n.update_likelihood 1 1).score)])
            ++ [((n.longform ++ [t]).reverse, 1)]
            ++ addWrites false (TrieNode.new (n.longform ++ [t])) rest
      | some c =>
          let c1 := c.increment_count 1
          [(c1.lfrev, c1.score)]
            ++ (if isRoot then []
                else [(n.lfrev, (n.update_likelihood c1.cntD 1).score)])
            ++ addWrites false c1 rest

mutual

/-- The `_longforms` writes performed by one iteration of the merge loop
of `AdeftMiner.update` (each node is written at most once during the walk,
so the BFS/DFS order difference is not observable in the final dict). -/
def mergeWritesStep (isRoot : Bool) (left : TrieNode) (tk : String) :
    TrieNode → List (List String × ℚ)
  | rchild@(.mk _ _ _ _ _ _ _ rcs) =>
      match left.children.lookup tk with
      | none =>
          if isRoot then []
          else [(left.lfrev, (left.update_likelihood rchild.cntD rchild.cntD).score)]
      | some c =>
          let c1 := c.increment_count rchild.cntD
          [(c1.lfrev, c1.score)]
            ++ (if isRoot then []
                else [(left.lfrev, (left.update_likelihood c1.cntD rchild.cntD).score)])
            ++ mergeWritesFold false c1 rcs

def mergeWritesFold (isRoot : Bool) (left : TrieNode) :
    Children → List (List String × ℚ)
  | .nil => []
  | .cons tk rchild rest =>
      mergeWritesStep isRoot left tk rchild
        ++ mergeWritesFold isRoot (mergeStep isRoot left tk rchild) rest

end

/-- Model of `adeft.discover.AdeftMiner`.  The `WatchfulStemmer` instance
is external to this core (its module is not part of the embedded source);
its usage-count state is modelled separately (`stemCounts` below), and the
stemming function itself is passed as a parameter where needed. -/
structure AdeftMiner : Type where
  shortform : String
  window : Nat
  internal_trie : TrieNode
  longforms : Longforms
  scores_propagated : Bool
  alignment_scores_computed : Bool

/-- `AdeftMiner.__init__`. -/
def minerInit (shortform : String) (window : Nat) : AdeftMiner :=
  ⟨shortform, window, rootNode, [], false, false⟩

/-- `AdeftMiner._add(tokens)`: stem each token (`st` is the stemming
function), reverse, then walk the trie and register the touched scores in
`_longforms`. -/
def AdeftMiner.addCand (st : String → String) (m : AdeftMiner)
    (tokens : List String) : AdeftMiner :=
  let ts := (tokens.map st).reverse
  { m with
    internal_trie := addTokens true m.internal_trie ts,
    longforms := applyWrites m.longforms (addWrites true m.internal_trie ts) }

/-- `AdeftMiner.process_texts(texts)`.  Modelled from the spec for the
candidate extraction step: `get_candidate_fragments`/`get_candidate`
(module `adeft.util`, not part of the embedded source) turn each text into
candidate token windows; the model takes the resulting list of candidate
token lists directly.  Each candidate is fed to `_add`, and both staleness
flags are set to `False` afterwards. -/
def AdeftMiner.process_texts (st : String → String) (m : AdeftMiner)
    (candidates : List (List String)) : AdeftMiner :=
  let m1 := candidates.foldl (fun acc c => acc.addCand st c) m
  { m1 with scores_propagated := false, alignment_scores_computed := false }

/-- `AdeftMiner.update(adeft_miner)`: no shortform check, no flag reset;
pre-merge the `_longforms` entries of the other miner whose keys are new,
merge the tries, and register the scores written during the walk.  (The
stemmer-count merge line acts on the external stemmer state, modelled
separately.) -/
def AdeftMiner.update (m other : AdeftMiner) : AdeftMiner :=
  { m with
    internal_trie := mergeNode true m.internal_trie other.internal_trie,
    longforms :=
      applyWrites
        (m.longforms ++ other.longforms.filter (fun kv => ¬ hasKeyL m.longforms kv.1))
        (mergeWritesFold true m.internal_trie other.internal_trie.children) }

/-- Binary case of `adeft.discover.compose`: copy the first miner and fold
`update` over the rest. -/
def compose2 (m1 m2 : AdeftMiner) : AdeftMiner := m1.update m2

/-- `_TrieNode.scaled_score(smoothing_param)`: `(score - 1)` over
`max(best_ancestor_score, best_descendent_score) + smoothing_param - 1`,
clamped to `0` when the denominator is non-positive. -/
def TrieNode.scaled_score (n : TrieNode) (smoothing_param : ℚ) : ℚ :=
  let numerator := n.score - 1
  let denominator :=
    max n.best_ancestor_score n.best_descendent_score + smoothing_param - 1
  if denominator ≤ 0 then 0 else numerator / denominator

mutual

/-- Top-down `best_ancestor_score` pass of `_propagate_scores`: each child
gets `max` of its own score and the parent's (already computed) value; the
order of the BFS does not affect this field, so it is written as a
top-down recursion.  `b` is the value to store at the current node. -/
def basNode (b : ℚ) (n : TrieNode) : TrieNode :=
  match n with
  | .mk lf c ft ft2 s _ bd cs => .mk lf c ft ft2 s b bd (basChildren b cs)

def basChildren (pb : ℚ) : Children → Children
  | .nil => .nil
  | .cons tk c rest =>
      .cons tk (basNode (if pb < c.score then c.score else pb) c) (basChildren pb rest)

end

mutual

def TrieNode.weight : TrieNode → Nat
  | .mk _ _ _ _ _ _ _ cs => 1 + Children.weight cs

def Children.weight : Children → Nat
  | .nil => 0
  | .cons _ c rest => TrieNode.weight c + Children.weight rest

end

/-- Enqueue the children of a node (in insertion order) with their paths. -/
def toQueue (p : List String) : Children → List (List String × TrieNode)
  | .nil => []
  | .cons tk c rest => (p ++ [tk], c) :: toQueue p rest

def qweight : List (List String × TrieNode) → Nat
  | [] => 0
  | (_, n) :: rest => n.weight + qweight rest

theorem qweight_append (a b : List (List String × TrieNode)) :
    qweight (a ++ b) = qweight a + qweight b := by
  induction a with
  | nil => simp [qweight]
  | cons hd tl ih => cases hd; simp [qweight, ih]; ring

theorem qweight_toQueue : ∀ (p : List String) (cs : Children),
    qweight (toQueue p cs) = Children.weight cs
  | _, .nil => by simp [qweight, toQueue, Children.weight]
  | p, .cons tk c rest => by
      simp [qweight, toQueue, Children.weight, qweight_toQueue p rest]

/-- The pop order of the `deque`-based BFS of `_propagate_scores`
(`pop` from one end, `appendleft` on the other: FIFO), as the list of
paths of the visited nodes.  The fuel argument makes the recursion
structural; `bfsOrder` supplies the total weight of the tree, which never
runs out (`bfsAux_fuel_irrelevant`). -/
def bfsAux : Nat → List (List String × TrieNode) → List (List String)
  | _, [] => []
  | 0, _ :: _ => []
  | fuel + 1, (p, n) :: rest => p :: bfsAux fuel (rest ++ toQueue p n.children)

theorem TrieNode.one_le_weight (n : TrieNode) : 1 ≤ n.weight := by
  cases n with
  | mk lf c ft ft2 s ba bd cs => simp [TrieNode.weight]

theorem qweight_cons_succ (p : List String) (n : TrieNode)
    (rest : List (List String × TrieNode)) :
    qweight (rest ++ toQueue p n.children) + 1 ≤ qweight ((p, n) :: rest) := by
  cases n with
  | mk lf c ft ft2 s ba bd cs =>
      simp [qweight, qweight_append, qweight_toQueue, TrieNode.weight,
        TrieNode.children]
      omega

/-- Any fuel at least the total queue weight yields the same BFS order, so
the choice made in `bfsOrder` is not a truncation. -/
theorem bfsAux_fuel_irrelevant : ∀ (f1 f2 : Nat) (q : List (List String × TrieNode)),
    qweight q ≤ f1 → qweight q ≤ f2 → bfsAux f1 q = bfsAux f2 q
  | _, _, [], _, _ => by simp [bfsAux]
  | f1, f2, (p, n) :: rest, h1, h2 => by
      have hq := qweight_cons_succ p n rest
      have hw : 1 ≤ qweight ((p, n) :: rest) := by
        have := TrieNode.one_le_weight n
        simp [qweight]; omega
      cases f1 with
      | zero => omega
      | succ a =>
          cases f2 with
          | zero => omega
          | succ b =>
              simp only [bfsAux]
              exact congrArg _
                (bfsAux_fuel_irrelevant a b _ (by omega) (by omega))

def bfsOrder (t : TrieNode) : List (List String) := bfsAux t.weight [([], t)]

/-- Node lookup along a token path from a given node. -/
def nodeAt (n : TrieNode) : List String → Option TrieNode
  | [] => some n
  | t :: p =>
      match n.children.lookup t with
      | none => none
      | some c => nodeAt c p

def Children.isNil : Children → Bool
  | .nil => true
  | .cons _ _ _ => false

/-- The bottom-up `while` loop of `_propagate_scores`, walking from the
node at `path` (the last BFS pop, a leaf) back toward the root: the leaf
gets `best_descendent_score = score`; each ancestor is updated to the max
of its score and the child's propagated value while the child's value
exceeds the ancestor's score or the ancestor's stored value is falsy
(`not current.parent.best_descendent_score`, i.e. equal to `0`).  Returns
the updated subtree, the propagated value, and whether the loop is still
running. -/
def propagateUp (n : TrieNode) : List String → TrieNode × ℚ × Bool
  | [] => (n.setBds n.score, n.score, true)
  | t :: p =>
      match n.children.lookup t with
      | none => (n, 0, false)
      | some c =>
          let r := propagateUp c p
          let n1 := n.setChildren (n.children.replace t r.1)
          if r.2.2 ∧ (n1.score < r.2.1 ∨ n1.best_descendent_score = 0) then
            let newBds := if r.2.1 < n1.score then n1.score else r.2.1
            (n1.setBds newBds, newBds, true)
          else
            (n1, r.2.1, false)

/-- `AdeftMiner._propagate_scores()`: the BFS loop computes
`best_ancestor_score` for every node; the descendant pass that follows sits
outside the loop in the source, so it runs once, from the node popped last
(when that node is childless), walking up its ancestor chain only. -/
def propagateScores (r : TrieNode) : TrieNode :=
  match (bfsOrder (basNode r.best_ancestor_score r)).getLast? with
  | none => basNode r.best_ancestor_score r
  | some p =>
      match nodeAt (basNode r.best_ancestor_score r) p with
      | none => basNode r.best_ancestor_score r
      | some last =>
          if last.children.isNil then
            (propagateUp (basNode r.best_ancestor_score r) p).1
          else basNode r.best_ancestor_score r

mutual

/-- `AdeftMiner._get_longform_helper(node, score_func)`: a leaf returns
itself; an internal node keeps, from each child's recursively extracted
candidates, those whose value strictly exceeds its own (the root keeps
everything); if nothing survives the node itself is the sole candidate.
A `none` result models a raised exception (in particular `score_func`
reading the unset `count` of the root); the per-child filtering of the
source distributes over the concatenation of the children's lists, which
is how it is written here. -/
def getLongformHelper (isRoot : Bool) (sf : TrieNode → Option (ℚ × Int)) :
    TrieNode → Option (List (List String × ℚ × Int))
  | n@(.mk _ _ _ _ _ _ _ cs) =>
      match cs with
      | .nil => (sf n).map (fun sc => [(n.longform, sc)])
      | .cons tk c rest =>
          match helperChildren sf (Children.cons tk c rest) with
          | none => none
          | some raw =>
              match (if isRoot then some raw
                     else (sf n).map (fun nsc => raw.filter (fun e => nsc.1 < e.2.1))) with
              | none => none
              | some filtered =>
                  if filtered.isEmpty then (sf n).map (fun sc => [(n.longform, sc)])
                  else some filtered

def helperChildren (sf : TrieNode → Option (ℚ × Int)) :
    Children → Option (List (List String × ℚ × Int))
  | .nil => some []
  | .cons _ c rest =>
      match getLongformHelper false sf c with
      | none => none
      | some l =>
          match helperChildren sf rest with
          | none => none
          | some ls => some (l ++ ls)

end

/-- The `use_abs=False` score function of `get_longforms`:
`(node.scaled_score(smoothing_param), node.count)`.  Reading `count` on
the root (never assigned by `__init__`) raises `AttributeError`, modelled
by `none`. -/
def score_func_noabs (smoothing_param : ℚ) (n : TrieNode) : Option (ℚ × Int) :=
  n.count.map (fun c => (n.scaled_score smoothing_param, c))

/-- `AdeftMiner._make_readable(tokens)` with the stemmer's
`most_frequent` passed as `mf`. -/
def makeReadable (mf : String → String) (tokens : List String) : String :=
  String.intercalate " " (tokens.reverse.map mf)

def insertLE {α : Type} (le : α → α → Bool) (x : α) : List α → List α
  | [] => [x]
  | y :: rest => if le x y then x :: y :: rest else y :: insertLE le x rest

/-- Stable insertion sort, modelling Python `sorted`. -/
def sortByLE {α : Type} (le : α → α → Bool) : List α → List α
  | [] => []
  | x :: rest => insertLE le x (sortByLE le rest)

/-- Comparator for the final sort of `get_longforms`: key
`(-count, -score, readable)` on `(readable, score, count)` triples. -/
def leTriple (a b : String × ℚ × Int) : Bool :=
  decide (b.2.2 < a.2.2) ||
    (decide (a.2.2 = b.2.2) &&
      (decide (b.2.1 < a.2.1) ||
        (decide (a.2.1 = b.2.1) && decide (a.1 < b.1 ∨ a.1 = b.1))))

/-- `AdeftMiner.get_longforms` on the `use_abs=False` branch with
`max_length='auto'`: propagate scores if stale, extract candidates, filter
by cutoff and token length, render via the stemmer (`mf`), sort by
`(-count, -score, text)` and emit `(longform, count, score)` triples.
`none` models a raised exception. -/
def get_longforms_noabs (mf : String → String) (cutoff smoothing_param : ℚ)
    (m : AdeftMiner) : Option (List (String × Int × ℚ)) :=
  let maxLength : Nat := 2 * m.shortform.length + 1
  let t1 := if m.scores_propagated then m.internal_trie
            else propagateScores m.internal_trie
  (getLongformHelper true (score_func_noabs smoothing_param) t1).map (fun res =>
    let l1 := res.filter (fun e => cutoff < e.2.1)
    let l2 := (l1.filter (fun e => e.1.length ≤ maxLength)).map
        (fun e => (makeReadable mf e.1, e.2.1, e.2.2))
    let l3 := sortByLE leTriple l2
    l3.map (fun e => (e.1, e.2.2, e.2.1)))

/-! ## Error handling and staleness flags (C7, C8, C9) -/

/-- C7: the code path itself.  On a freshly constructed miner the helper
reaches the childless root and `score_func` reads `node.count`, a slot the
root `__init__` never assigns, so the call raises `AttributeError`
(modelled by `none`) instead of returning an empty list.  This holds for
every stemmer rendering, cutoff and smoothing parameter. -/
theorem get_longforms_fresh_raises (mf : String → String)
    (cutoff smoothing_param : ℚ) (sfm : String) (w : Nat) :
    get_longforms_noabs mf cutoff smoothing_param (minerInit sfm w) = none := rfl

/-- C8 counterexample: two miners with different shortforms; `update`
performs no shortform check, raises nothing, and modifies the receiving
state (the foreign candidate appears in the merged trie), contradicting
the claimed `ConfigurationMismatchError` with unmodified state. -/
theorem update_mismatched_shortforms_merges :
    (minerInit "A" 100).shortform
        ≠ ((minerInit "B" 100).addCand id ["y"]).shortform ∧
      (nodeAt ((minerInit "A" 100).update
          ((minerInit "B" 100).addCand id ["y"])).internal_trie ["y"]).isSome
        = true ∧
      (nodeAt (minerInit "A" 100).internal_trie ["y"]).isSome = false :=
  ⟨by decide, rfl, rfl⟩

/-- C8 amended: `update` (and hence `compose`) performs no shortform
validation at all — its result does not depend on either miner's
shortform, and the receiver's shortform is simply kept. -/
theorem update_ignores_shortforms (m1 m2 : AdeftMiner) (s : String) :
    m1.update { m2 with shortform := s } = m1.update m2 ∧
      { m1 with shortform := s }.update m2
        = { m1.update m2 with shortform := s } ∧
      (m1.update m2).shortform = m1.shortform ∧
      compose2 m1 { m2 with shortform := s } = compose2 m1 m2 :=
  ⟨rfl, rfl, rfl, rfl⟩

/-- A miner whose propagation flag is set (as `get_longforms` leaves it). -/
def minerPropagated : AdeftMiner :=
  { minerInit "A" 100 with scores_propagated := true }

/-- C9 counterexample: `update` does not reset the staleness flags: a miner
with `_scores_propagated = True` keeps it `True` across a merge, so the
claimed invalidation does not happen. -/
theorem update_keeps_stale_flag :
    (minerPropagated.update (minerInit "A" 100)).scores_propagated ≠ false := by
  decide

/-- C9 amended: `process_texts` sets both staleness flags to `False`, but
`update` leaves both flags exactly as they were on the receiver. -/
theorem staleness_flags_behaviour (st : String → String) (m other : AdeftMiner)
    (cands : List (List String)) :
    (m.process_texts st cands).scores_propagated = false ∧
      (m.process_texts st cands).alignment_scores_computed = false ∧
      (m.update other).scores_propagated = m.scores_propagated ∧
      (m.update other).alignment_scores_computed = m.alignment_scores_computed :=
  ⟨rfl, rfl, rfl, rfl⟩

/-! ## Score propagation (C3, C4) -/

mutual

/-- The true maximum of a node's own score and all of its descendants'
scores (what the spec asserts `best_descendent_score` becomes). -/
def subtreeMaxScore : TrieNode → ℚ
  | .mk _ _ _ _ s _ _ cs => childrenMaxScore s cs

def childrenMaxScore (acc : ℚ) : Children → ℚ
  | .nil => acc
  | .cons _ c rest => childrenMaxScore (max acc (subtreeMaxScore c)) rest

end

/-- A trie holding the two single-token candidates `a` and `b`, ingested
once each. -/
def trieAB : TrieNode := addTokens true (addTokens true rootNode ["a"]) ["b"]

/-- C3: evaluating `_propagate_scores` on the two-leaf trie.  The
descendant pass of the source sits outside the BFS `while` loop, so it
runs only from the last node popped (the leaf `b`); the leaf `a` keeps the
`-1` sentinel in `best_descendent_score` although the maximum of its own
and its descendants' scores is `1`. -/
theorem propagate_scores_misses_first_leaf :
    (nodeAt (propagateScores trieAB) ["a"]).map TrieNode.best_descendent_score
        = some (-1) ∧
      (nodeAt trieAB ["a"]).map subtreeMaxScore = some 1 ∧
      (nodeAt (propagateScores trieAB) ["b"]).map TrieNode.best_descendent_score
        = some 1 ∧
      ((-1 : ℚ) ≠ 1) :=
  ⟨rfl, rfl, rfl, by norm_num⟩

mutual

/-- Everything of two nodes agrees except possibly the
`best_descendent_score` fields: the shape of the change made by the
bottom-up pass of `_propagate_scores`. -/
def SameButBds : TrieNode → TrieNode → Prop
  | .mk lf c ft ft2 s ba _ cs, .mk lf2 c2 ftb ft2b s2 ba2 _ cs2 =>
      lf = lf2 ∧ c = c2 ∧ ft = ftb ∧ ft2 = ft2b ∧ s = s2 ∧ ba = ba2 ∧
        SameButBdsC cs cs2

def SameButBdsC : Children → Children → Prop
  | .nil, .nil => True
  | .cons tk c r, .cons tk2 c2 r2 => tk = tk2 ∧ SameButBds c c2 ∧ SameButBdsC r r2
  | .nil, .cons _ _ _ => False
  | .cons _ _ _, .nil => False

end

mutual

theorem sameButBds_refl : ∀ n : TrieNode, SameButBds n n
  | .mk lf c ft ft2 s ba bd cs => by
      simp [SameButBds]; exact sameButBdsC_refl cs

theorem sameButBdsC_refl : ∀ cs : Children, SameButBdsC cs cs
  | .nil => by simp [SameButBdsC]
  | .cons tk c r => by
      simp [SameButBdsC]; exact ⟨sameButBds_refl c, sameButBdsC_refl r⟩

end

theorem sameButBds_setBds (n : TrieNode) (b : ℚ) : SameButBds n (n.setBds b) := by
  cases n with
  | mk lf c ft ft2 s ba bd cs =>
      simp [TrieNode.setBds, SameButBds]; exact sameButBdsC_refl cs

theorem sameButBdsC_replace : ∀ (cs : Children) (tk : String) (c c2 : TrieNode),
    cs.lookup tk = some c → SameButBds c c2 → SameButBdsC cs (cs.replace tk c2)
  | .nil, tk, c, c2, h, _ => by simp [Children.lookup] at h
  | .cons t x r, tk, c, c2, h, hsame => by
      simp [Children.lookup] at h
      by_cases ht : t = tk
      · subst ht
        simp at h
        subst h
        simp [Children.replace, SameButBdsC]
        exact ⟨hsame, sameButBdsC_refl r⟩
      · simp [ht] at h
        simp [Children.replace, ht, SameButBdsC]
        exact ⟨sameButBds_refl x, sameButBdsC_replace r tk c c2 h hsame⟩

theorem sameButBds_mk_children (lf : List String) (c : Option Int) (ft ft2 : Int)
    (s ba bd bd2 : ℚ) (cs cs2 : Children) (h : SameButBdsC cs cs2) :
    SameButBds (.mk lf c ft ft2 s ba bd cs) (.mk lf c ft ft2 s ba bd2 cs2) := by
  simp [SameButBds]; exact h

/-- The bottom-up pass changes only `best_descendent_score` fields. -/
theorem propagateUp_sameButBds : ∀ (q : List String) (n : TrieNode),
    SameButBds n (propagateUp n q).1
  | [], n => by simpa [propagateUp] using sameButBds_setBds n n.score
  | t :: p, n => by
      cases n with
      | mk lf c ft ft2 s ba bd cs =>
          simp only [propagateUp, TrieNode.children, TrieNode.setChildren]
          cases hl : Children.lookup t cs with
          | none => exact sameButBds_refl _
          | some child =>
              have hrep : SameButBdsC cs
                  (cs.replace t (propagateUp child p).1) :=
                sameButBdsC_replace cs t child _ hl (propagateUp_sameButBds p child)
              simp only [TrieNode.setBds]
              split
              · exact sameButBds_mk_children lf c ft ft2 s ba bd _ cs _ hrep
              · exact sameButBds_mk_children lf c ft ft2 s ba bd bd cs _ hrep

mutual

/-- The recurrence the `best_ancestor_score` pass actually establishes:
every child's stored value is `max` of the child's own score and the
parent's stored value (written with the `if` of the source). -/
def BasOK : TrieNode → Prop
  | .mk _ _ _ _ _ ba _ cs => BasOKC ba cs

def BasOKC (pb : ℚ) : Children → Prop
  | .nil => True
  | .cons _ c rest =>
      (c.best_ancestor_score = if pb < c.score then c.score else pb) ∧
        BasOK c ∧ BasOKC pb rest

end

theorem basNode_score (b : ℚ) (n : TrieNode) : (basNode b n).score = n.score := by
  cases n with
  | mk lf c ft ft2 s ba bd cs => simp [basNode, TrieNode.score]

theorem basNode_bas (b : ℚ) (n : TrieNode) :
    (basNode b n).best_ancestor_score = b := by
  cases n with
  | mk lf c ft ft2 s ba bd cs => simp [basNode, TrieNode.best_ancestor_score]

mutual

theorem basNode_basOK : ∀ (b : ℚ) (n : TrieNode), BasOK (basNode b n)
  | b, .mk lf c ft ft2 s ba bd cs => by
      simp only [basNode, BasOK]
      exact basChildren_basOK b cs

theorem basChildren_basOK : ∀ (pb : ℚ) (cs : Children), BasOKC pb (basChildren pb cs)
  | pb, .nil => by simp [basChildren, BasOKC]
  | pb, .cons tk c rest => by
      simp only [basChildren, BasOKC]
      refine ⟨?_, basNode_basOK _ c, basChildren_basOK pb rest⟩
      rw [basNode_bas, basNode_score]

end

mutual

/-- Changing only `best_descendent_score` fields cannot disturb the
ancestor-score recurrence. -/
theorem basOK_of_sameButBds : ∀ (n n2 : TrieNode), SameButBds n n2 → BasOK n → BasOK n2
  | .mk lf c ft ft2 s ba bd cs, .mk lf2 c2 ftb ft2b s2 ba2 bd2 cs2, hs, hb => by
      simp only [SameButBds] at hs
      simp only [BasOK] at hb ⊢
      obtain ⟨-, -, -, -, -, hba, hcs⟩ := hs
      subst hba
      exact basOKC_of_sameButBds cs cs2 ba hcs hb

theorem basOKC_of_sameButBds : ∀ (cs cs2 : Children) (pb : ℚ),
    SameButBdsC cs cs2 → BasOKC pb cs → BasOKC pb cs2
  | .nil, .nil, pb, _, _ => by simp [BasOKC]
  | .nil, .cons _ _ _, pb, hs, _ => by simp [SameButBdsC] at hs
  | .cons _ _ _, .nil, pb, hs, _ => by simp [SameButBdsC] at hs
  | .cons tk c r, .cons tk2 c2 r2, pb, hs, hb => by
      simp only [SameButBdsC] at hs
      simp only [BasOKC] at hb ⊢
      obtain ⟨htk, hcc, hrr⟩ := hs
      obtain ⟨hval, hcb, hrb⟩ := hb
      have hscore : c.score = c2.score := by
        cases c with
        | mk lf a ft ft2 s ba bd cs3 =>
            cases c2 with
            | mk lf2 a2 ftb ft2b s2 ba2 bd2 cs4 =>
                simp only [SameButBds] at hcc
                simp [TrieNode.score]
                exact hcc.2.2.2.2.1
      have hbas : c.best_ancestor_score = c2.best_ancestor_score := by
        cases c with
        | mk lf a ft ft2 s ba bd cs3 =>
            cases c2 with
            | mk lf2 a2 ftb ft2b s2 ba2 bd2 cs4 =>
                simp only [SameButBds] at hcc
                simp [TrieNode.best_ancestor_score]
                exact hcc.2.2.2.2.2.1
      exact ⟨by rw [← hbas, ← hscore]; exact hval,
        basOK_of_sameButBds c c2 hcc hcb,
        basOKC_of_sameButBds r r2 pb hrr hrb⟩

end

theorem sameButBds_bas (n n2 : TrieNode) (h : SameButBds n n2) :
    n.best_ancestor_score = n2.best_ancestor_score := by
  cases n with
  | mk lf c ft ft2 s ba bd cs =>
      cases n2 with
      | mk lf2 c2 ftb ft2b s2 ba2 bd2 cs2 =>
          simp only [SameButBds] at h
          simp [TrieNode.best_ancestor_score]
          exact h.2.2.2.2.2.1

/-- The full `_propagate_scores` keeps the ancestor-score recurrence
established by its first pass. -/
theorem propagateScores_basOK (t : TrieNode) : BasOK (propagateScores t) := by
  unfold propagateScores
  split
  · exact basNode_basOK _ t
  · split
    · exact basNode_basOK _ t
    · split
      · exact basOK_of_sameButBds _ _ (propagateUp_sameButBds _ _) (basNode_basOK _ t)
      · exact basNode_basOK _ t

theorem propagateScores_root_bas (t : TrieNode) :
    (propagateScores t).best_ancestor_score = t.best_ancestor_score := by
  unfold propagateScores
  split
  · exact basNode_bas _ t
  · split
    · exact basNode_bas _ t
    · split
      · rw [← sameButBds_bas _ _ (propagateUp_sameButBds _ _)]
        exact basNode_bas _ t
      · exact basNode_bas _ t

theorem basOKC_lookup : ∀ (cs : Children) (pb : ℚ) (tk : String) (c : TrieNode),
    BasOKC pb cs → cs.lookup tk = some c →
    (c.best_ancestor_score = if pb < c.score then c.score else pb) ∧ BasOK c
  | .nil, pb, tk, c, _, hl => by simp [Children.lookup] at hl
  | .cons t x r, pb, tk, c, hb, hl => by
      simp only [BasOKC] at hb
      simp only [Children.lookup] at hl
      by_cases ht : t = tk
      · simp [ht] at hl
        subst hl
        exact ⟨hb.1, hb.2.1⟩
      · simp [ht] at hl
        exact basOKC_lookup r pb tk c hb.2.2 hl

theorem basOK_nodeAt : ∀ (p : List String) (n m : TrieNode),
    BasOK n → nodeAt n p = some m → BasOK m
  | [], n, m, hb, hm => by simp [nodeAt] at hm; rw [← hm]; exact hb
  | t :: p, n, m, hb, hm => by
      cases n with
      | mk lf c ft ft2 s ba bd cs =>
          simp only [nodeAt, TrieNode.children] at hm
          cases hl : Children.lookup t cs with
          | none => rw [hl] at hm; simp at hm
          | some child =>
              rw [hl] at hm
              simp only [BasOK] at hb
              exact basOK_nodeAt p child m (basOKC_lookup cs ba t child hb hl).2 hm

theorem nodeAt_append_last : ∀ (p : List String) (x : String) (n m : TrieNode),
    nodeAt n (p ++ [x]) = some m →
    ∃ q, nodeAt n p = some q ∧ q.children.lookup x = some m
  | [], x, n, m, h => by
      refine ⟨n, by simp [nodeAt], ?_⟩
      simp only [List.nil_append, nodeAt] at h
      cases hl : n.children.lookup x with
      | none => rw [hl] at h; simp at h
      | some c =>
          rw [hl] at h
          simp only [nodeAt, Option.some.injEq] at h
          rw [h]
  | t :: p, x, n, m, h => by
      simp only [List.cons_append, nodeAt] at h
      cases hl : n.children.lookup t with
      | none => rw [hl] at h; simp at h
      | some c =>
          rw [hl] at h
          obtain ⟨q, hq, hqx⟩ := nodeAt_append_last p x c m h
          exact ⟨q, by simp only [nodeAt, hl]; exact hq, hqx⟩

theorem if_lt_eq_max (a b : ℚ) : (if a < b then b else a) = max a b := by
  by_cases h : a < b
  · simp [h, max_eq_right (le_of_lt h)]
  · simp [h, max_eq_left (le_of_not_lt h)]

/-- C4 amended: after `_propagate_scores`, every node's
`best_ancestor_score` equals the `max` of the node's *own* score and its
parent's `best_ancestor_score` (the root keeps its prior field value, the
`-1` sentinel): the node's own score does contribute, and a depth-1 node
receives `max(own score, -1)` rather than retaining the sentinel. -/
theorem best_ancestor_score_recurrence (t : TrieNode) :
    (propagateScores t).best_ancestor_score = t.best_ancestor_score ∧
      ∀ (p : List String) (x : String) (m mp : TrieNode),
        nodeAt (propagateScores t) (p ++ [x]) = some m →
        nodeAt (propagateScores t) p = some mp →
        m.best_ancestor_score = max mp.best_ancestor_score m.score := by
  refine ⟨propagateScores_root_bas t, ?_⟩
  intro p x m mp hm hp
  obtain ⟨q, hq, hqx⟩ := nodeAt_append_last p x _ m hm
  rw [hp] at hq
  injection hq with hq
  subst hq
  have hmb : BasOK mp := basOK_nodeAt p _ mp (propagateScores_basOK t) hp
  cases mp with
  | mk lf c ft ft2 s ba bd cs =>
      simp only [BasOK] at hmb
      simp only [TrieNode.children] at hqx
      have := (basOKC_lookup cs ba x m hmb hqx).1
      rw [this, TrieNode.best_ancestor_score, if_lt_eq_max]

/-- The single-candidate trie used for concrete checks. -/
def trieA : TrieNode := addTokens true rootNode ["a"]

/-- The node for candidate `a` after `_propagate_scores`. -/
def nodeAafter : TrieNode := .mk ["a"] (some 1) 0 0 1 1 1 .nil

/-- The root after `_propagate_scores` on `trieA`. -/
def rootAafter : TrieNode := .mk [] none 0 0 (-1) (-1) 1 (.cons "a" nodeAafter .nil)

/-- C4 counterexample: in the single-candidate trie the depth-1 node gets
`best_ancestor_score = 1` — its own score — not the retained `-1`
sentinel claimed (the source compares `child.score`, not the parent's
score, against the inherited value). -/
theorem depth_one_bas_is_own_score :
    (nodeAt (propagateScores trieA) ["a"]).map TrieNode.best_ancestor_score
        = some 1 ∧ (1 : ℚ) ≠ -1 :=
  ⟨rfl, by norm_num⟩

/-- Witness for `best_ancestor_score_recurrence` at the single-candidate
trie: the depth-1 node satisfies the recurrence with the root. -/
theorem best_ancestor_score_recurrence_witness :
    nodeAafter.best_ancestor_score
      = max rootAafter.best_ancestor_score nodeAafter.score :=
  (best_ancestor_score_recurrence trieA).2 [] "a" nodeAafter rootAafter rfl rfl

/-! ## Candidate extraction: the local-maximum property (C5) -/

mutual

/-- Occurrence of a node somewhere in a tree (the node itself or in some
child's subtree). -/
def InTree (m : TrieNode) : TrieNode → Prop
  | n@(.mk _ _ _ _ _ _ _ cs) => m = n ∨ InChildren m cs

def InChildren (m : TrieNode) : Children → Prop
  | .nil => False
  | .cons _ c rest => InTree m c ∨ InChildren m rest

end

/-- Structural membership of a child node in a children map. -/
def CMem (c : TrieNode) : Children → Prop
  | .nil => False
  | .cons _ c2 rest => c = c2 ∨ CMem c rest

theorem inChildren_of_cmem : ∀ (cs : Children) (c m : TrieNode),
    CMem c cs → InTree m c → InChildren m cs
  | .nil, c, m, h, _ => h.elim
  | .cons tk c2 rest, c, m, h, hin => by
      cases h with
      | inl he => exact Or.inl (he ▸ hin)
      | inr ht => exact Or.inr (inChildren_of_cmem rest c m ht hin)

theorem inTree_refl (n : TrieNode) : InTree n n := by
  cases n with
  | mk lf c ft ft2 s ba bd cs => exact Or.inl rfl

theorem inTree_of_child {n : TrieNode} {c m : TrieNode}
    (hc : CMem c n.children) (hm : InTree m c) : InTree m n := by
  cases n with
  | mk lf cc ft ft2 s ba bd cs =>
      exact Or.inr (inChildren_of_cmem cs c m hc hm)

/-- The helper never returns an empty list: an internal node whose
children's candidates are all filtered out returns itself. -/
theorem helper_ne_nil (isRoot : Bool) (sf : TrieNode → Option (ℚ × Int))
    (n : TrieNode) (l : List (List String × ℚ × Int))
    (h : getLongformHelper isRoot sf n = some l) : l ≠ [] := by
  cases n with
  | mk lf c ft ft2 s ba bd cs =>
      cases cs with
      | nil =>
          simp only [getLongformHelper] at h
          cases hsf : sf (.mk lf c ft ft2 s ba bd .nil) with
          | none => simp [hsf] at h
          | some sc => simp [hsf] at h; rw [← h]; simp
      | cons tk c0 rest =>
          simp only [getLongformHelper] at h
          cases hraw : helperChildren sf (Children.cons tk c0 rest) with
          | none => simp [hraw] at h
          | some raw =>
              simp only [hraw] at h
              cases hfil : (if isRoot = true then some raw
                  else (sf (.mk lf c ft ft2 s ba bd (.cons tk c0 rest))).map
                    (fun nsc => raw.filter (fun e => nsc.1 < e.2.1))) with
              | none => simp [hfil] at h
              | some filtered =>
                  simp only [hfil] at h
                  by_cases he : filtered.isEmpty
                  · rw [if_pos he] at h
                    cases hsf : sf (.mk lf c ft ft2 s ba bd (.cons tk c0 rest)) with
                    | none => simp [hsf] at h
                    | some sc => simp [hsf] at h; rw [← h]; simp
                  · rw [if_neg he] at h
                    injection h with h
                    rw [← h]
                    intro hcon
                    rw [hcon] at he
                    simp at he

/-- Every candidate a non-root call returns has value at least the
node's own value (it is the node itself, or survived a strict filter). -/
theorem helper_lower_bound (sf : TrieNode → Option (ℚ × Int)) (n : TrieNode)
    (l : List (List String × ℚ × Int))
    (h : getLongformHelper false sf n = some l) :
    ∀ e ∈ l, ∃ sc, sf n = some sc ∧ sc.1 ≤ e.2.1 := by
  cases n with
  | mk lf c ft ft2 s ba bd cs =>
      cases cs with
      | nil =>
          simp only [getLongformHelper] at h
          cases hsf : sf (.mk lf c ft ft2 s ba bd .nil) with
          | none => rw [hsf] at h; simp at h
          | some sc =>
              rw [hsf] at h
              simp at h
              intro e he
              rw [← h] at he
              simp at he
              exact ⟨sc, rfl, by rw [he]⟩
      | cons tk c0 rest =>
          simp only [getLongformHelper] at h
          cases hraw : helperChildren sf (Children.cons tk c0 rest) with
          | none => simp [hraw] at h
          | some raw =>
              simp only [hraw] at h
              cases hsf : sf (.mk lf c ft ft2 s ba bd (.cons tk c0 rest)) with
              | none => simp [hsf] at h
              | some nsc =>
                  simp only [hsf, Bool.false_eq_true, if_false, Option.map_some'] at h
                  by_cases he : (raw.filter (fun e => decide (nsc.1 < e.2.1))).isEmpty
                  · rw [if_pos he] at h
                    simp at h
                    intro e hemem
                    rw [← h] at hemem
                    simp at hemem
                    exact ⟨nsc, rfl, by rw [hemem]⟩
                  · rw [if_neg he] at h
                    injection h with h
                    intro e hemem
                    rw [← h] at hemem
                    simp only [List.mem_filter, decide_eq_true_eq] at hemem
                    exact ⟨nsc, rfl, le_of_lt hemem.2⟩

/-- Every entry of the concatenated children results comes from some
child, together with that child's full result list. -/
theorem helperChildren_mem (sf : TrieNode → Option (ℚ × Int)) :
    ∀ (cs : Children) (raw : List (List String × ℚ × Int)),
    helperChildren sf cs = some raw →
    ∀ e ∈ raw, ∃ c lc, CMem c cs ∧ getLongformHelper false sf c = some lc ∧ e ∈ lc
  | .nil, raw, h, e, he => by
      simp only [helperChildren] at h
      injection h with h
      rw [← h] at he
      simp at he
  | .cons tk c0 rest, raw, h, e, he => by
      simp only [helperChildren] at h
      cases hl : getLongformHelper false sf c0 with
      | none => simp [hl] at h
      | some l0 =>
          simp only [hl] at h
          cases hrest : helperChildren sf rest with
          | none => simp [hrest] at h
          | some lrest =>
              simp only [hrest] at h
              injection h with h
              rw [← h] at he
              rcases List.mem_append.mp he with h0 | hr
              · exact ⟨c0, l0, Or.inl rfl, hl, h0⟩
              · obtain ⟨c, lc, hcm, hcl, hec⟩ :=
                  helperChildren_mem sf rest lrest hrest e hr
                exact ⟨c, lc, Or.inr hcm, hcl, hec⟩

/-- Every child of a children map has a full result list inside the
concatenation (when the concatenation succeeded). -/
theorem helperChildren_all (sf : TrieNode → Option (ℚ × Int)) :
    ∀ (cs : Children) (raw : List (List String × ℚ × Int)),
    helperChildren sf cs = some raw →
    ∀ c, CMem c cs →
      ∃ lc, getLongformHelper false sf c = some lc ∧ ∀ e ∈ lc, e ∈ raw
  | .nil, raw, _, c, hc => hc.elim
  | .cons tk c0 rest, raw, h, c, hc => by
      simp only [helperChildren] at h
      cases hl : getLongformHelper false sf c0 with
      | none => simp [hl] at h
      | some l0 =>
          simp only [hl] at h
          cases hrest : helperChildren sf rest with
          | none => simp [hrest] at h
          | some lrest =>
              simp only [hrest] at h
              injection h with h
              cases hc with
              | inl he =>
                  refine ⟨l0, he ▸ hl, fun e hee => ?_⟩
                  rw [← h]
                  exact List.mem_append.mpr (Or.inl hee)
              | inr ht =>
                  obtain ⟨lc, hcl, hsub⟩ := helperChildren_all sf rest lrest hrest c ht
                  exact ⟨lc, hcl, fun e hee =>
                    h ▸ List.mem_append.mpr (Or.inr (hsub e hee))⟩

theorem sizeOf_lt_of_cmem : ∀ (cs : Children) (c : TrieNode),
    CMem c cs → sizeOf c < sizeOf cs
  | .nil, c, h => h.elim
  | .cons tk c2 rest, c, h => by
      cases h with
      | inl he => subst he; simp; omega
      | inr ht => have := sizeOf_lt_of_cmem rest c ht; simp; omega

theorem cmem_head (tk : String) (c : TrieNode) (rest : Children) :
    CMem c (Children.cons tk c rest) := Or.inl rfl

/-- C5 core: every candidate the helper returns comes from a node that is
either a leaf or whose direct children all have value at most the
candidate's value (which is the node's own value). -/
theorem helper_local_max (sf : TrieNode → Option (ℚ × Int)) :
    ∀ (n : TrieNode) (isRoot : Bool) (l : List (List String × ℚ × Int)),
    getLongformHelper isRoot sf n = some l →
    ∀ e ∈ l, ∃ m, InTree m n ∧ m.longform = e.1 ∧ sf m = some e.2 ∧
      (m.children = Children.nil ∨
        ∀ c, CMem c m.children → ∀ sc, sf c = some sc → sc.1 ≤ e.2.1)
  | .mk lf cnt ft ft2 s ba bd .nil, isRoot, l, h, e, he => by
          simp only [getLongformHelper] at h
          cases hsf : sf (.mk lf cnt ft ft2 s ba bd .nil) with
          | none => simp [hsf] at h
          | some sc =>
              simp [hsf] at h
              rw [← h] at he
              simp at he
              subst he
              exact ⟨.mk lf cnt ft ft2 s ba bd .nil, inTree_refl _, rfl,
                by rw [hsf], Or.inl rfl⟩
  | .mk lf cnt ft ft2 s ba bd (.cons tk c0 rest), isRoot, l, h, e, he => by
          simp only [getLongformHelper] at h
          cases hraw : helperChildren sf (Children.cons tk c0 rest) with
          | none => simp [hraw] at h
          | some raw =>
              simp only [hraw] at h
              have hraw_ne : raw ≠ [] := by
                obtain ⟨lc, hcl, hsub⟩ :=
                  helperChildren_all sf _ raw hraw c0 (cmem_head tk c0 rest)
                obtain ⟨e0, he0⟩ :=
                  List.exists_mem_of_ne_nil lc (helper_ne_nil false sf c0 lc hcl)
                intro hcon
                rw [hcon] at hsub
                exact (List.not_mem_nil e0) (hsub e0 he0)
              cases isRoot with
              | true =>
                  simp only [if_pos] at h
                  have hne : raw.isEmpty = false := by
                    cases raw with
                    | nil => exact absurd rfl hraw_ne
                    | cons x xs => rfl
                  rw [hne] at h
                  simp at h
                  rw [← h] at he
                  obtain ⟨c, lc, hcm, hcl, hec⟩ :=
                    helperChildren_mem sf _ raw hraw e he
                  obtain ⟨m, hm, hml, hms, hmc⟩ :=
                    helper_local_max sf c false lc hcl e hec
                  exact ⟨m, inTree_of_child hcm hm, hml, hms, hmc⟩
              | false =>
                  simp only [Bool.false_eq_true, if_false] at h
                  cases hsf : sf (.mk lf cnt ft ft2 s ba bd (.cons tk c0 rest)) with
                  | none => simp [hsf] at h
                  | some nsc =>
                      simp only [hsf, Option.map_some'] at h
                      by_cases hemp : (raw.filter (fun x => decide (nsc.1 < x.2.1))).isEmpty
                      · rw [if_pos hemp] at h
                        simp [hsf] at h
                        rw [← h] at he
                        simp at he
                        subst he
                        have hfe : raw.filter (fun x => decide (nsc.1 < x.2.1)) = [] := by
                          cases hfc : raw.filter (fun x => decide (nsc.1 < x.2.1)) with
                          | nil => rfl
                          | cons y ys => rw [hfc] at hemp; simp [List.isEmpty] at hemp
                        have hall : ∀ x ∈ raw, ¬ nsc.1 < x.2.1 := by
                          intro x hx
                          have := List.filter_eq_nil_iff.mp hfe x hx
                          simpa using this
                        refine ⟨.mk lf cnt ft ft2 s ba bd (.cons tk c0 rest),
                          inTree_refl _, rfl, by rw [hsf], Or.inr ?_⟩
                        intro c hcm sc hscc
                        obtain ⟨lc, hcl, hsub⟩ :=
                          helperChildren_all sf _ raw hraw c hcm
                        obtain ⟨e0, he0⟩ := List.exists_mem_of_ne_nil lc
                          (helper_ne_nil false sf c lc hcl)
                        obtain ⟨sc2, hsc2, hle⟩ :=
                          helper_lower_bound sf c lc hcl e0 he0
                        rw [hscc] at hsc2
                        injection hsc2 with hsc2
                        rw [← hsc2] at hle
                        have hbound := hall e0 (hsub e0 he0)
                        have h2 : e0.2.1 ≤ nsc.1 := le_of_not_lt hbound
                        exact le_trans hle h2
                      · rw [if_neg hemp] at h
                        injection h with h
                        rw [← h] at he
                        have hemem : e ∈ raw := (List.mem_filter.mp he).1
                        obtain ⟨c, lc, hcm, hcl, hec⟩ :=
                          helperChildren_mem sf _ raw hraw e hemem
                        obtain ⟨m, hm, hml, hms, hmc⟩ :=
                          helper_local_max sf c false lc hcl e hec
                        exact ⟨m, inTree_of_child hcm hm, hml, hms, hmc⟩
termination_by n => sizeOf n
decreasing_by
  all_goals
    simp_wf
    have h1 : sizeOf c < sizeOf (Children.cons tk c0 rest) :=
      sizeOf_lt_of_cmem _ c hcm
    simp at h1 ⊢
    omega

/-- C5: every candidate returned by the root call of
`_get_longform_helper` (the traversal `get_longforms` performs) comes from
a trie node that is either a leaf or all of whose children's values are at
most its own value; its reported value and count are that node's. -/
theorem extracted_candidate_is_local_max (sf : TrieNode → Option (ℚ × Int))
    (t : TrieNode) (l : List (List String × ℚ × Int))
    (h : getLongformHelper true sf t = some l) :
    ∀ e ∈ l, ∃ m, InTree m t ∧ m.longform = e.1 ∧ sf m = some e.2 ∧
      (m.children = Children.nil ∨
        ∀ c, CMem c m.children → ∀ sc, sf c = some sc → sc.1 ≤ e.2.1) :=
  helper_local_max sf t true l h

/-- The plain score/count function used for the concrete C5 check. -/
def scoreCountFunc (n : TrieNode) : Option (ℚ × Int) :=
  n.count.map (fun c => (n.score, c))

/-- Witness: on the two-candidate trie, the extracted entry for `a`
satisfies the local-maximum property. -/
theorem extracted_candidate_is_local_max_witness :
    ∃ m, InTree m trieAB ∧ m.longform = ["a"] ∧
      scoreCountFunc m = some (1, 1) ∧
      (m.children = Children.nil ∨
        ∀ c, CMem c m.children → ∀ sc, scoreCountFunc c = some sc → sc.1 ≤ 1) :=
  extracted_candidate_is_local_max scoreCountFunc trieAB
    [(["a"], 1, 1), (["b"], 1, 1)] rfl (["a"], 1, 1) (by simp)

/-! ## Association-list lemmas for the children map -/

/-- Induction principle for `Children` alone (the mutual recursor has two
motives, which the `induction` tactic cannot use directly). -/
@[induction_eliminator]
theorem Children.inductionOn {motive : Children → Prop} (nil : motive .nil)
    (cons : ∀ (token : String) (child : TrieNode) (rest : Children),
      motive rest → motive (.cons token child rest)) : ∀ cs, motive cs
  | .nil => nil
  | .cons tk c rest => cons tk c rest (Children.inductionOn nil cons rest)

namespace Children

theorem lookup_snoc_ne (cs : Children) (tk y : String) (v : TrieNode) (h : y ≠ tk) :
    (cs.snoc y v).lookup tk = cs.lookup tk := by
  induction cs with
  | nil => simp [snoc, lookup, h]
  | cons t c rest ih => by_cases ht : t = tk <;> simp [snoc, lookup, ht, ih]

theorem lookup_snoc_self (cs : Children) (tk : String) (v : TrieNode)
    (h : cs.hasKey tk = false) : (cs.snoc tk v).lookup tk = some v := by
  induction cs with
  | nil => simp [snoc, lookup]
  | cons t c rest ih =>
      simp only [hasKey, lookup] at h
      by_cases ht : t = tk
      · simp [ht] at h
      · simp only [ht, if_false] at h
        simp only [snoc, lookup, ht, if_false]
        exact ih h

theorem hasKey_cons (t tk : String) (c : TrieNode) (rest : Children) :
    hasKey tk (cons t c rest) = (decide (t = tk) || hasKey tk rest) := by
  by_cases h : t = tk <;> simp [hasKey, lookup, h]

theorem lookup_replace_ne (cs : Children) (tk y : String) (v : TrieNode) (h : y ≠ tk) :
    (cs.replace y v).lookup tk = cs.lookup tk := by
  induction cs with
  | nil => simp [replace, lookup]
  | cons t c rest ih =>
      by_cases ht : t = y
      · simp [replace, ht, lookup, h]
      · by_cases ht2 : t = tk <;>
          simp [replace, lookup, ht, ht2, Ne.symm h, ih]

theorem lookup_replace_self (cs : Children) (tk : String) (v c0 : TrieNode)
    (h : cs.lookup tk = some c0) : (cs.replace tk v).lookup tk = some v := by
  induction cs with
  | nil => simp [lookup] at h
  | cons t c rest ih =>
      by_cases ht : t = tk
      · subst ht; simp [replace, lookup]
      · simp only [lookup, ht, if_false] at h
        simp [replace, lookup, ht, ih h]

theorem hasKey_replace (cs : Children) (tk y : String) (v : TrieNode) :
    (cs.replace y v).hasKey tk = cs.hasKey tk := by
  induction cs with
  | nil => simp [replace]
  | cons t c rest ih =>
      by_cases ht : t = y
      · simp [replace, ht, hasKey_cons]
      · simp [replace, ht, hasKey_cons, ih]

theorem sumCnt_snoc (cs : Children) (tk : String) (v : TrieNode) :
    (cs.snoc tk v).sumCnt = cs.sumCnt + v.cntD := by
  induction cs with
  | nil => simp [snoc, sumCnt]
  | cons t c rest ih => simp [snoc, sumCnt, ih]; ring

theorem sumCnt2_snoc (cs : Children) (tk : String) (v : TrieNode) :
    (cs.snoc tk v).sumCnt2 = cs.sumCnt2 + v.cntD * v.cntD := by
  induction cs with
  | nil => simp [snoc, sumCnt2]
  | cons t c rest ih => simp [snoc, sumCnt2, ih]; ring

theorem sumCnt_replace (cs : Children) (tk : String) (v c0 : TrieNode)
    (h : cs.lookup tk = some c0) :
    (cs.replace tk v).sumCnt = cs.sumCnt - c0.cntD + v.cntD := by
  induction cs with
  | nil => simp [lookup] at h
  | cons t c rest ih =>
      by_cases ht : t = tk
      · subst ht
        simp [lookup] at h
        subst h
        simp [replace, sumCnt]
        ring
      · simp only [lookup, ht, if_false] at h
        simp [replace, sumCnt, ht, ih h]
        ring

theorem sumCnt2_replace (cs : Children) (tk : String) (v c0 : TrieNode)
    (h : cs.lookup tk = some c0) :
    (cs.replace tk v).sumCnt2 = cs.sumCnt2 - c0.cntD * c0.cntD + v.cntD * v.cntD := by
  induction cs with
  | nil => simp [lookup] at h
  | cons t c rest ih =>
      by_cases ht : t = tk
      · subst ht
        simp [lookup] at h
        subst h
        simp [replace, sumCnt2]
        ring
      · simp only [lookup, ht, if_false] at h
        simp [replace, sumCnt2, ht, ih h]
        ring

end Children

/-! ## The statistics invariant (C1) -/

/-- All children counts bounded by `b` (the dominance part of the
invariant: a child is never observed more often than its parent). -/
def ChildrenBelow (b : Int) : Children → Prop
  | .nil => True
  | .cons _ c rest => c.cntD ≤ b ∧ ChildrenBelow b rest

mutual

/-- Well-formedness of a non-root node: positive count, `sum_ft` and
`sum_ft2` equal to the sum / sum of squares of the children's counts,
`score = count - sum_ft2/sum_ft` (with the `0` convention for
`sum_ft = 0`), the propagation fields at their sentinels, counts dominated
by the node's own count, and well-formed children. -/
def NodeWF : TrieNode → Prop
  | .mk lf c ft ft2 s ba bd cs =>
      (∃ cv : Int, c = some cv ∧ 1 ≤ cv ∧
        ft = cs.sumCnt ∧ ft2 = cs.sumCnt2 ∧
        s = (cv : ℚ) - TrieNode.ratioTerm cs.sumCnt cs.sumCnt2 ∧
        ba = -1 ∧ bd = -1 ∧ ChildrenBelow cv cs) ∧
      ChildrenWF lf cs

/-- Well-formedness of a children map under a parent with longform `lf`:
every child is well-formed, extends the parent's longform by its token,
and tokens are unique. -/
def ChildrenWF (lf : List String) : Children → Prop
  | .nil => True
  | .cons tk ch rest =>
      NodeWF ch ∧ ch.longform = lf ++ [tk] ∧ rest.hasKey tk = false ∧
        ChildrenWF lf rest

end

/-- Well-formedness of the root: the `__init__` sentinel fields are
untouched by every operation, and the children are well-formed. -/
def RootWF : TrieNode → Prop
  | .mk lf c ft ft2 s ba bd cs =>
      lf = [] ∧ c = none ∧ ft = 0 ∧ ft2 = 0 ∧ s = -1 ∧ ba = -1 ∧ bd = -1 ∧
        ChildrenWF [] cs

/-- Miner tries reachable by construction, any sequence of ingested
candidates (`process_texts` → `_add`), and merges (`update`). -/
inductive Reached : TrieNode → Prop where
  | init : Reached rootNode
  | ingest (ts : List String) {t : TrieNode} : Reached t →
      Reached (addTokens true t ts)
  | merge {t s : TrieNode} : Reached t → Reached s →
      Reached (mergeNode true t s)

theorem childrenBelow_mono {b b2 : Int} (h : b ≤ b2) :
    ∀ cs, ChildrenBelow b cs → ChildrenBelow b2 cs := by
  intro cs
  induction cs with
  | nil => intro; trivial
  | cons t c rest ih =>
      intro hb
      exact ⟨le_trans hb.1 h, ih hb.2⟩

theorem childrenBelow_snoc {b : Int} {cs : Children} {tk : String} {v : TrieNode}
    (h : ChildrenBelow b cs) (hv : v.cntD ≤ b) :
    ChildrenBelow b (cs.snoc tk v) := by
  induction cs with
  | nil => exact ⟨hv, trivial⟩
  | cons t c rest ih => exact ⟨h.1, ih h.2⟩

theorem childrenBelow_replace {b : Int} {cs : Children} {tk : String} {v : TrieNode}
    (h : ChildrenBelow b cs) (hv : v.cntD ≤ b) :
    ChildrenBelow b (cs.replace tk v) := by
  induction cs with
  | nil => trivial
  | cons t c rest ih =>
      by_cases ht : t = tk
      · subst ht
        simp only [Children.replace, if_pos rfl]
        exact ⟨hv, h.2⟩
      · simp only [Children.replace, ht, if_false]
        exact ⟨h.1, ih h.2⟩

theorem childrenBelow_lookup {b : Int} {cs : Children} {tk : String} {c : TrieNode}
    (h : ChildrenBelow b cs) (hl : cs.lookup tk = some c) : c.cntD ≤ b := by
  induction cs with
  | nil => simp [Children.lookup] at hl
  | cons t c2 rest ih =>
      by_cases ht : t = tk
      · simp [Children.lookup, ht] at hl
        exact hl ▸ h.1
      · simp only [Children.lookup, ht, if_false] at hl
        exact ih h.2 hl

theorem childrenWF_lookup {lf : List String} {cs : Children} {tk : String}
    {c : TrieNode} (h : ChildrenWF lf cs) (hl : cs.lookup tk = some c) :
    NodeWF c ∧ c.longform = lf ++ [tk] := by
  induction cs with
  | nil => simp [Children.lookup] at hl
  | cons t c2 rest ih =>
      by_cases ht : t = tk
      · subst ht
        simp [Children.lookup] at hl
        simp only [ChildrenWF] at h
        exact hl ▸ ⟨h.1, h.2.1⟩
      · simp only [Children.lookup, ht, if_false] at hl
        simp only [ChildrenWF] at h
        exact ih h.2.2.2 hl

theorem childrenWF_snoc {lf : List String} {cs : Children} {tk : String}
    {v : TrieNode} (h : ChildrenWF lf cs) (hv : NodeWF v)
    (hlf : v.longform = lf ++ [tk]) (hk : cs.hasKey tk = false) :
    ChildrenWF lf (cs.snoc tk v) := by
  induction cs with
  | nil => exact ⟨hv, hlf, by simp [Children.hasKey, Children.lookup], trivial⟩
  | cons t c rest ih =>
      simp only [ChildrenWF] at h ⊢
      simp only [Children.hasKey_cons] at hk
      rcases Bool.or_eq_false_iff.mp hk with ⟨hk1, hk2⟩
      have ht : ¬ (t = tk) := by simpa using hk1
      refine ⟨h.1, h.2.1, ?_, ih h.2.2.2 hk2⟩
      rw [Children.hasKey, Children.lookup_snoc_ne rest t tk v
        (fun hh => ht hh.symm)]
      exact h.2.2.1

theorem childrenWF_replace {lf : List String} {cs : Children} {tk : String}
    {v c0 : TrieNode} (h : ChildrenWF lf cs) (hl : cs.lookup tk = some c0)
    (hv : NodeWF v) (hlf : v.longform = c0.longform) :
    ChildrenWF lf (cs.replace tk v) := by
  induction cs with
  | nil => trivial
  | cons t c rest ih =>
      simp only [ChildrenWF] at h
      by_cases ht : t = tk
      · subst ht
        simp [Children.lookup] at hl
        subst hl
        simp only [Children.replace, if_pos rfl, ChildrenWF]
        exact ⟨hv, hlf ▸ h.2.1, h.2.2.1, h.2.2.2⟩
      · simp only [Children.lookup, ht, if_false] at hl
        simp only [Children.replace, ht, if_false, ChildrenWF]
        refine ⟨h.1, h.2.1, ?_, ih h.2.2.2 hl⟩
        rw [Children.hasKey_replace]
        exact h.2.2.1

/-- The fresh node of `__init__` with a longform is well-formed. -/
theorem nodeWF_new (lf : List String) : NodeWF (TrieNode.new lf) := by
  refine ⟨⟨1, rfl, le_refl 1, rfl, rfl, ?_, rfl, rfl, trivial⟩, trivial⟩
  simp [Children.sumCnt, Children.sumCnt2, TrieNode.ratioTerm]

/-- `increment_count` with a non-negative increment preserves node
well-formedness. -/
theorem nodeWF_increment {n : TrieNode} {d : Int} (h : NodeWF n) (hd : 0 ≤ d) :
    NodeWF (n.increment_count d) := by
  cases n with
  | mk lf c ft ft2 s ba bd cs =>
      obtain ⟨⟨cv, hc, h1, hft, hft2, hs, hba, hbd, hbel⟩, hcw⟩ := h
      subst hc
      refine ⟨⟨cv + d, rfl, by omega, hft, hft2, ?_, hba, hbd,
        childrenBelow_mono (by omega) cs hbel⟩, hcw⟩
      show s + (d : ℚ) = ((cv + d : Int) : ℚ) - TrieNode.ratioTerm cs.sumCnt cs.sumCnt2
      rw [hs]
      push_cast
      ring

theorem increment_count_count (n : TrieNode) (d : Int) (cv : Int)
    (h : n.count = some cv) : (n.increment_count d).count = some (cv + d) := by
  cases n with
  | mk lf c ft ft2 s ba bd cs =>
      simp only [TrieNode.count] at h
      simp [TrieNode.increment_count, TrieNode.count, h]

theorem increment_count_longform (n : TrieNode) (d : Int) :
    (n.increment_count d).longform = n.longform := by
  cases n with
  | mk lf c ft ft2 s ba bd cs => simp [TrieNode.increment_count, TrieNode.longform]

theorem increment_count_children (n : TrieNode) (d : Int) :
    (n.increment_count d).children = n.children := by
  cases n with
  | mk lf c ft ft2 s ba bd cs => simp [TrieNode.increment_count, TrieNode.children]

theorem cntD_some {n : TrieNode} {v : Int} (h : n.count = some v) : n.cntD = v := by
  simp [TrieNode.cntD, h]

theorem hasKey_false_of_lookup_none {cs : Children} {tk : String}
    (h : cs.lookup tk = none) : cs.hasKey tk = false := by
  simp [Children.hasKey, h]

theorem nodeWF_elim {n : TrieNode} (h : NodeWF n) :
    ∃ cv : Int, n.count = some cv ∧ 1 ≤ cv ∧
      n.sum_ft = n.children.sumCnt ∧ n.sum_ft2 = n.children.sumCnt2 ∧
      n.score = (cv : ℚ)
        - TrieNode.ratioTerm n.children.sumCnt n.children.sumCnt2 ∧
      n.best_ancestor_score = -1 ∧ n.best_descendent_score = -1 ∧
      ChildrenBelow cv n.children ∧ ChildrenWF n.longform n.children := by
  cases n with
  | mk lf c ft ft2 s ba bd cs =>
      obtain ⟨⟨cv, hc, h1, hft, hft2, hs, hba, hbd, hbel⟩, hcw⟩ := h
      exact ⟨cv, hc, h1, hft, hft2, hs, hba, hbd, hbel, hcw⟩

/-- `_add` never changes the fields of the node it starts from other than
its statistics and children: count, longform and the propagation fields
are untouched. -/
theorem addTokens_top : ∀ (p : List String) (isRoot : Bool) (n : TrieNode),
    (addTokens isRoot n p).count = n.count ∧
      (addTokens isRoot n p).longform = n.longform ∧
      (addTokens isRoot n p).best_ancestor_score = n.best_ancestor_score ∧
      (addTokens isRoot n p).best_descendent_score = n.best_descendent_score
  | [], _, n => ⟨rfl, rfl, rfl, rfl⟩
  | t :: rest, isRoot, n => by
      cases n with
      | mk lf c ft ft2 s ba bd cs =>
          simp only [addTokens, TrieNode.children]
          cases hl : Children.lookup t cs <;> cases isRoot <;>
            simp [hl, TrieNode.update_likelihood, TrieNode.setChildren,
              TrieNode.count, TrieNode.longform, TrieNode.best_ancestor_score,
              TrieNode.best_descendent_score]

/-- Preservation of the invariant by the `_add` walk below the root.  The
hypothesis `ChildrenBelow (cv - 1)` records that the caller has just
incremented this node, while its children still carry the previous
counts. -/
theorem addTokens_nodeWF : ∀ (p : List String) (n : TrieNode) (cv : Int),
    n.count = some cv → NodeWF n → ChildrenBelow (cv - 1) n.children →
    NodeWF (addTokens false n p)
  | [], n, cv, _, hwf, _ => hwf
  | t :: rest, .mk lf c ft ft2 s ba bd cs, cv, hc, hwf, hbel2 => by
      obtain ⟨cv2, hc2, h1, hft, hft2, hs, hba, hbd, hbel, hcw⟩ := nodeWF_elim hwf
      simp only [TrieNode.count] at hc
      simp only [TrieNode.count, TrieNode.children, TrieNode.longform,
        TrieNode.sum_ft, TrieNode.sum_ft2, TrieNode.score,
        TrieNode.best_ancestor_score, TrieNode.best_descendent_score]
        at hc2 hft hft2 hs hba hbd hbel hcw
      rw [hc] at hc2
      injection hc2 with hc2
      subst hc2
      simp only [TrieNode.children] at hbel2
      subst hba hbd
      simp only [addTokens, TrieNode.children]
      cases hl : Children.lookup t cs with
      | none =>
          simp only [hl, Bool.false_eq_true, if_false]
          have hchild : NodeWF (addTokens false (TrieNode.new (lf ++ [t])) rest) :=
            addTokens_nodeWF rest (TrieNode.new (lf ++ [t])) 1 rfl
              (nodeWF_new _) trivial
          have htop := addTokens_top rest false (TrieNode.new (lf ++ [t]))
          have hcnt : (addTokens false (TrieNode.new (lf ++ [t])) rest).cntD = 1 :=
            cntD_some (htop.1.trans rfl)
          have hlf : (addTokens false (TrieNode.new (lf ++ [t])) rest).longform
              = lf ++ [t] := htop.2.1.trans rfl
          simp only [TrieNode.update_likelihood, TrieNode.setChildren,
            TrieNode.children, TrieNode.longform]
          refine ⟨⟨cv, hc, h1, ?_, ?_, ?_, rfl, rfl, ?_⟩, ?_⟩
          · rw [Children.sumCnt_snoc, hcnt, hft]
          · rw [Children.sumCnt2_snoc, hcnt, hft2]; ring
          · rw [Children.sumCnt_snoc, Children.sumCnt2_snoc, hcnt, hs, hft, hft2]
            ring_nf
          · exact childrenBelow_snoc
              (childrenBelow_mono (by omega) cs hbel) (by omega)
          · exact childrenWF_snoc hcw hchild hlf (hasKey_false_of_lookup_none hl)
      | some c0 =>
          simp only [hl, Bool.false_eq_true, if_false]
          obtain ⟨hwf0, hlf0⟩ := childrenWF_lookup hcw hl
          obtain ⟨ccv, hcc, hcc1, _, _, _, _, _, hbel0, hcw0⟩ := nodeWF_elim hwf0
          have hdom : c0.cntD ≤ cv - 1 := childrenBelow_lookup hbel2 hl
          rw [cntD_some hcc] at hdom
          have hwf1 : NodeWF (c0.increment_count 1) :=
            nodeWF_increment hwf0 (by omega)
          have hc1 : (c0.increment_count 1).count = some (ccv + 1) :=
            increment_count_count c0 1 ccv hcc
          have hbelc : ChildrenBelow ((ccv + 1) - 1) (c0.increment_count 1).children := by
            rw [increment_count_children]
            exact childrenBelow_mono (by omega) _ hbel0
          have hchild : NodeWF (addTokens false (c0.increment_count 1) rest) :=
            addTokens_nodeWF rest (c0.increment_count 1) (ccv + 1) hc1 hwf1 hbelc
          have htop := addTokens_top rest false (c0.increment_count 1)
          have hcnt : (addTokens false (c0.increment_count 1) rest).cntD = ccv + 1 :=
            cntD_some (htop.1.trans hc1)
          have hlfc : (addTokens false (c0.increment_count 1) rest).longform
              = lf ++ [t] := by
            rw [htop.2.1, increment_count_longform, hlf0]
          have hc1d : (c0.increment_count 1).cntD = ccv + 1 := cntD_some hc1
          simp only [TrieNode.update_likelihood, TrieNode.setChildren,
            TrieNode.children, TrieNode.longform, hc1d]
          refine ⟨⟨cv, hc, h1, ?_, ?_, ?_, rfl, rfl, ?_⟩, ?_⟩
          · rw [Children.sumCnt_replace cs t _ c0 hl, hcnt, hft, cntD_some hcc]
            ring
          · rw [Children.sumCnt2_replace cs t _ c0 hl, hcnt, hft2, cntD_some hcc]
            ring
          · rw [Children.sumCnt_replace cs t _ c0 hl,
              Children.sumCnt2_replace cs t _ c0 hl, hcnt, hs, hft, hft2,
              cntD_some hcc]
            ring_nf
          · refine childrenBelow_replace
              (childrenBelow_mono (by omega) cs hbel) ?_
            rw [hcnt]; omega
          · exact childrenWF_replace hcw hl hchild (by rw [hlfc, hlf0])

/-- Preservation of the invariant by `_add` at the root: the root is never
likelihood-updated, so its sentinel fields survive; the walk below is the
non-root case. -/
theorem addTokens_rootWF : ∀ (p : List String) (t : TrieNode),
    RootWF t → RootWF (addTokens true t p)
  | [], _, h => h
  | tk :: rest, .mk lf c ft ft2 s ba bd cs, h => by
      obtain ⟨hlf, hc, hft, hft2, hs, hba, hbd, hcw⟩ := h
      subst hlf hc hft hft2 hs hba hbd
      simp only [addTokens, TrieNode.children]
      cases hl : Children.lookup tk cs with
      | none =>
          simp only [hl, if_pos, TrieNode.setChildren, TrieNode.children,
            TrieNode.longform]
          have hchild : NodeWF (addTokens false (TrieNode.new ([] ++ [tk])) rest) :=
            addTokens_nodeWF rest (TrieNode.new ([] ++ [tk])) 1 rfl
              (nodeWF_new _) trivial
          have htop := addTokens_top rest false (TrieNode.new ([] ++ [tk]))
          have hlfc : (addTokens false (TrieNode.new ([] ++ [tk])) rest).longform
              = [] ++ [tk] := htop.2.1.trans rfl
          exact ⟨rfl, rfl, rfl, rfl, rfl, rfl, rfl,
            childrenWF_snoc hcw hchild hlfc (hasKey_false_of_lookup_none hl)⟩
      | some c0 =>
          simp only [hl, if_pos, TrieNode.setChildren, TrieNode.children,
            TrieNode.longform]
          obtain ⟨hwf0, hlf0⟩ := childrenWF_lookup hcw hl
          obtain ⟨ccv, hcc, hcc1, _, _, _, _, _, hbel0, hcw0⟩ := nodeWF_elim hwf0
          have hwf1 : NodeWF (c0.increment_count 1) :=
            nodeWF_increment hwf0 (by omega)
          have hc1 : (c0.increment_count 1).count = some (ccv + 1) :=
            increment_count_count c0 1 ccv hcc
          have hbelc : ChildrenBelow ((ccv + 1) - 1)
              (c0.increment_count 1).children := by
            rw [increment_count_children]
            exact childrenBelow_mono (by omega) _ hbel0
          have hchild : NodeWF (addTokens false (c0.increment_count 1) rest) :=
            addTokens_nodeWF rest (c0.increment_count 1) (ccv + 1) hc1 hwf1 hbelc
          have htop := addTokens_top rest false (c0.increment_count 1)
          have hlfc : (addTokens false (c0.increment_count 1) rest).longform
              = c0.longform := by
            rw [htop.2.1, increment_count_longform]
          exact ⟨rfl, rfl, rfl, rfl, rfl, rfl, rfl,
            childrenWF_replace hcw hl hchild hlfc⟩

/-- The count a pending merge will still add to the child keyed `y`. -/
def pendCnt (rs : Children) (y : String) : Int :=
  match rs.lookup y with
  | none => 0
  | some rc => rc.cntD

/-- Children counts plus their still-pending merge increments bounded by
`b`: the dominance invariant in the middle of the merge loop. -/
def PendingBelow (b : Int) (rs : Children) : Children → Prop
  | .nil => True
  | .cons y cy rest => cy.cntD + pendCnt rs y ≤ b ∧ PendingBelow b rs rest

/-- Key uniqueness alone (the part of `ChildrenWF` the pending-dominance
bookkeeping needs). -/
def KeysND : Children → Prop
  | .nil => True
  | .cons tk _ rest => rest.hasKey tk = false ∧ KeysND rest

theorem keysND_of_childrenWF {lf : List String} :
    ∀ {cs : Children}, ChildrenWF lf cs → KeysND cs := by
  intro cs
  induction cs with
  | nil => intro; trivial
  | cons tk c rest ih => intro h; exact ⟨h.2.2.1, ih h.2.2.2⟩

theorem pendCnt_nil (y : String) : pendCnt Children.nil y = 0 := rfl

theorem pendCnt_cons_ne {rest : Children} {y z : String} {rc : TrieNode}
    (h : y ≠ z) : pendCnt (Children.cons y rc rest) z = pendCnt rest z := by
  simp [pendCnt, Children.lookup, h]

theorem pendCnt_cons_self {rest : Children} {y : String} {rc : TrieNode} :
    pendCnt (Children.cons y rc rest) y = rc.cntD := by
  simp [pendCnt, Children.lookup]

theorem pendCnt_none {rs : Children} {y : String} (h : rs.hasKey y = false) :
    pendCnt rs y = 0 := by
  unfold pendCnt
  cases hl : rs.lookup y with
  | none => rfl
  | some rc => rw [Children.hasKey, hl] at h; simp at h

theorem pendCnt_le {rs : Children} {b : Int} (h : ChildrenBelow b rs)
    (hb : 0 ≤ b) (y : String) : pendCnt rs y ≤ b := by
  unfold pendCnt
  cases hl : rs.lookup y with
  | none => exact hb
  | some rc => exact childrenBelow_lookup h hl

theorem pendCnt_nonneg {lf : List String} {rs : Children}
    (h : ChildrenWF lf rs) (y : String) : 0 ≤ pendCnt rs y := by
  unfold pendCnt
  cases hl : rs.lookup y with
  | none => exact le_refl 0
  | some rc =>
      obtain ⟨hwf, -⟩ := childrenWF_lookup h hl
      obtain ⟨cv, hc, h1, -⟩ := nodeWF_elim hwf
      show 0 ≤ rc.cntD
      rw [cntD_some hc]
      omega

theorem pendingBelow_intro {b1 b2 : Int} {rs : Children} :
    ∀ {lcs : Children}, ChildrenBelow b1 lcs → (∀ y, pendCnt rs y ≤ b2) →
    PendingBelow (b1 + b2) rs lcs := by
  intro lcs
  induction lcs with
  | nil => intro _ _; trivial
  | cons z cz rest ih =>
      intro hb hp
      exact ⟨by have := hp z; have := hb.1; omega, ih hb.2 hp⟩

theorem pendingBelow_keys_ne {b : Int} {y : String} {rc : TrieNode}
    {rest : Children} : ∀ {lcs : Children}, lcs.hasKey y = false →
    PendingBelow b (Children.cons y rc rest) lcs → PendingBelow b rest lcs := by
  intro lcs
  induction lcs with
  | nil => intro _ _; trivial
  | cons z cz l2 ih =>
      intro hk hp
      simp only [Children.hasKey_cons, Bool.or_eq_false_iff] at hk
      have hzy : y ≠ z := by
        have := hk.1
        simp at this
        exact fun hh => this hh.symm
      refine ⟨?_, ih hk.2 hp.2⟩
      have := hp.1
      rwa [pendCnt_cons_ne hzy] at this

theorem pendingBelow_snoc {b : Int} {rest lcs : Children} {y : String}
    {rc : TrieNode} (h : PendingBelow b rest lcs)
    (hv : rc.cntD + pendCnt rest y ≤ b) :
    PendingBelow b rest (lcs.snoc y rc) := by
  induction lcs with
  | nil => exact ⟨hv, trivial⟩
  | cons z cz l2 ih => exact ⟨h.1, ih h.2⟩

theorem pendingBelow_replace {b : Int} {rest : Children} {y : String}
    {c2 : TrieNode} : ∀ {lcs : Children}, PendingBelow b rest lcs →
    c2.cntD + pendCnt rest y ≤ b → PendingBelow b rest (lcs.replace y c2) := by
  intro lcs
  induction lcs with
  | nil => intro _ _; trivial
  | cons z cz l2 ih =>
      intro h hv
      by_cases hz : z = y
      · subst hz
        simp only [Children.replace, if_pos rfl]
        exact ⟨hv, h.2⟩
      · simp only [Children.replace, hz, if_false]
        exact ⟨h.1, ih h.2 hv⟩

theorem mergeStep_top (isRoot : Bool) (l : TrieNode) (tk : String)
    (rc : TrieNode) :
    (mergeStep isRoot l tk rc).count = l.count ∧
      (mergeStep isRoot l tk rc).longform = l.longform ∧
      (mergeStep isRoot l tk rc).best_ancestor_score = l.best_ancestor_score ∧
      (mergeStep isRoot l tk rc).best_descendent_score
        = l.best_descendent_score := by
  cases rc with
  | mk rlf rcn rft rft2 rsc rba rbd rcs =>
      cases l with
      | mk lf c ft ft2 s ba bd cs =>
          simp only [mergeStep, TrieNode.children]
          cases hl : Children.lookup tk cs <;> cases isRoot <;>
            simp [hl, TrieNode.update_likelihood, TrieNode.setChildren,
              TrieNode.count, TrieNode.longform, TrieNode.best_ancestor_score,
              TrieNode.best_descendent_score]

theorem mergeFold_top : ∀ (rs : Children) (isRoot : Bool) (l : TrieNode),
    (mergeFold isRoot l rs).count = l.count ∧
      (mergeFold isRoot l rs).longform = l.longform ∧
      (mergeFold isRoot l rs).best_ancestor_score = l.best_ancestor_score ∧
      (mergeFold isRoot l rs).best_descendent_score = l.best_descendent_score
  | .nil, _, l => ⟨rfl, rfl, rfl, rfl⟩
  | .cons tk rc rest, isRoot, l => by
      have h1 := mergeStep_top isRoot l tk rc
      have h2 := mergeFold_top rest isRoot (mergeStep isRoot l tk rc)
      exact ⟨h2.1.trans h1.1, h2.2.1.trans h1.2.1, h2.2.2.1.trans h1.2.2.1,
        h2.2.2.2.trans h1.2.2.2⟩

theorem pendingBelow_found {b : Int} {y : String} {rc c0 c2 : TrieNode}
    {rest : Children} :
    ∀ {lcs : Children}, KeysND lcs → lcs.lookup y = some c0 →
    c2.cntD = c0.cntD + rc.cntD → rest.hasKey y = false →
    PendingBelow b (Children.cons y rc rest) lcs →
    PendingBelow b rest (lcs.replace y c2) := by
  intro lcs
  induction lcs with
  | nil => intro _ hl; simp [Children.lookup] at hl
  | cons z cz l2 ih =>
      intro hnd hl hc2 hkr hpb
      by_cases hz : z = y
      · subst hz
        simp [Children.lookup] at hl
        subst hl
        simp only [Children.replace, if_pos rfl]
        refine ⟨?_, pendingBelow_keys_ne hnd.1 hpb.2⟩
        rw [pendCnt_none hkr, hc2]
        have := hpb.1
        rw [pendCnt_cons_self] at this
        omega
      · simp only [Children.lookup, hz, if_false] at hl
        simp only [Children.replace, hz, if_false]
        refine ⟨?_, ih hnd.2 hl hc2 hkr hpb.2⟩
        have := hpb.1
        have hyz : y ≠ z := fun hh => hz hh.symm
        rwa [pendCnt_cons_ne hyz] at this

theorem childrenBelow_of_pending {b : Int} {rs : Children} {lf : List String} :
    ∀ {lcs : Children}, PendingBelow b rs lcs → ChildrenWF lf rs →
    ChildrenBelow b lcs := by
  intro lcs
  induction lcs with
  | nil => intro _ _; trivial
  | cons z cz l2 ih =>
      intro hpb hwf
      refine ⟨?_, ih hpb.2 hwf⟩
      have h1 := hpb.1
      have h2 := pendCnt_nonneg hwf z
      omega

mutual

/-- Invariant preservation through the merge loop of `update`, below the
root.  `PendingBelow` tracks that each current child count plus its
still-pending increment stays dominated by this node's (already
incremented) count. -/
theorem mergeFold_nodeWF : ∀ (rs : Children) (l : TrieNode) (cv : Int),
    l.count = some cv → NodeWF l →
    PendingBelow cv rs l.children →
    ChildrenWF l.longform rs →
    ChildrenBelow cv rs →
    NodeWF (mergeFold false l rs)
  | .nil, l, cv, _, hwf, _, _, _ => hwf
  | .cons y rc rest, .mk lf c ft ft2 s ba bd lcs, cv, hc, hwf, hpb, hrswf, hrsb => by
      cases rc with
      | mk rlf rcn rft rft2 rsc rba rbd rcs =>
          obtain ⟨cv2, hc2, h1, hft, hft2, hs, hba, hbd, hbel, hcw⟩ :=
            nodeWF_elim hwf
          simp only [TrieNode.count] at hc
          simp only [TrieNode.count, TrieNode.children, TrieNode.longform,
            TrieNode.sum_ft, TrieNode.sum_ft2, TrieNode.score,
            TrieNode.best_ancestor_score, TrieNode.best_descendent_score]
            at hc2 hft hft2 hs hba hbd hbel hcw
          rw [hc] at hc2
          injection hc2 with hc2
          subst hc2
          subst hba hbd hft hft2 hs
          simp only [TrieNode.children] at hpb
          simp only [TrieNode.longform] at hrswf
          obtain ⟨hrcwf, hrclf, hrk, hrestwf⟩ := hrswf
          obtain ⟨hrcb, hrestb⟩ := hrsb
          obtain ⟨rcv, hrcc, hr1, hrft, hrft2, hrs, hrba, hrbd, hrbel, hrcw⟩ :=
            nodeWF_elim hrcwf
          simp only [TrieNode.count, TrieNode.children, TrieNode.longform]
            at hrcc hrbel hrcw hrclf
          have hrcd : (TrieNode.mk rlf rcn rft rft2 rsc rba rbd rcs).cntD = rcv := by
            simp [TrieNode.cntD, TrieNode.count, hrcc]
          simp only [mergeFold, mergeStep, TrieNode.children]
          cases hl : Children.lookup y lcs with
          | none =>
              simp only [hl, Bool.false_eq_true, if_false]
              have hky : lcs.hasKey y = false := hasKey_false_of_lookup_none hl
              have hpb2 : PendingBelow cv rest
                  (lcs.snoc y (TrieNode.mk rlf rcn rft rft2 rsc rba rbd rcs)) := by
                refine pendingBelow_snoc (pendingBelow_keys_ne hky hpb) ?_
                rw [pendCnt_none hrk, hrcd]
                have h3 := hrcb
                rw [hrcd] at h3
                omega
              refine mergeFold_nodeWF rest _ cv ?_ ?_ hpb2 ?_ ?_
              · simp [TrieNode.update_likelihood, TrieNode.setChildren,
                  TrieNode.count, hc]
              · simp only [TrieNode.update_likelihood, TrieNode.setChildren,
                  TrieNode.children]
                refine ⟨⟨cv, hc, h1, ?_, ?_, ?_, rfl, rfl, ?_⟩, ?_⟩
                · rw [Children.sumCnt_snoc, hrcd]
                · rw [Children.sumCnt2_snoc, hrcd]; ring
                · rw [Children.sumCnt_snoc, Children.sumCnt2_snoc, hrcd]
                  ring_nf
                · exact childrenBelow_of_pending hpb2 hrestwf
                · exact childrenWF_snoc hcw hrcwf hrclf hky
              · simp only [TrieNode.update_likelihood, TrieNode.setChildren,
                  TrieNode.longform]
                exact hrestwf
              · exact hrestb
          | some c0 =>
              simp only [hl, Bool.false_eq_true, if_false]
              obtain ⟨hwf0, hlf0⟩ := childrenWF_lookup hcw hl
              obtain ⟨ccv, hcc, hcc1, _, _, _, _, _, hbel0, hcw0⟩ :=
                nodeWF_elim hwf0
              have hc1 : (c0.increment_count
                  (TrieNode.mk rlf rcn rft rft2 rsc rba rbd rcs).cntD).count
                  = some (ccv + rcv) := by
                rw [hrcd]; exact increment_count_count c0 rcv ccv hcc
              have hwf1 : NodeWF (c0.increment_count
                  (TrieNode.mk rlf rcn rft rft2 rsc rba rbd rcs).cntD) := by
                refine nodeWF_increment hwf0 ?_
                rw [hrcd]; omega
              have hlfeq : (c0.increment_count
                  (TrieNode.mk rlf rcn rft rft2 rsc rba rbd rcs).cntD).longform
                  = rlf := by
                rw [increment_count_longform, hlf0, ← hrclf]
              have hbelc : ChildrenBelow ((ccv + rcv) - rcv)
                  (c0.increment_count
                    (TrieNode.mk rlf rcn rft rft2 rsc rba rbd rcs).cntD).children := by
                rw [increment_count_children]
                exact childrenBelow_mono (by omega) _ hbel0
              have hc2wf : NodeWF (mergeFold false
                  (c0.increment_count
                    (TrieNode.mk rlf rcn rft rft2 rsc rba rbd rcs).cntD) rcs) :=
                mergeNode_nodeWF (TrieNode.mk rlf rcn rft rft2 rsc rba rbd rcs)
                  _ (ccv + rcv) rcv hc1 hwf1 hrcwf hlfeq
                  (by simp [TrieNode.count, hrcc]) (by omega) hbelc
              have htop := mergeFold_top rcs false
                (c0.increment_count
                  (TrieNode.mk rlf rcn rft rft2 rsc rba rbd rcs).cntD)
              have hc2c : (mergeFold false
                  (c0.increment_count
                    (TrieNode.mk rlf rcn rft rft2 rsc rba rbd rcs).cntD) rcs).cntD
                  = ccv + rcv := cntD_some (htop.1.trans hc1)
              have hc2lf : (mergeFold false
                  (c0.increment_count
                    (TrieNode.mk rlf rcn rft rft2 rsc rba rbd rcs).cntD) rcs).longform
                  = c0.longform := by
                rw [htop.2.1, increment_count_longform]
              have hc1d : (c0.increment_count
                  (TrieNode.mk rlf rcn rft rft2 rsc rba rbd rcs).cntD).cntD
                  = ccv + rcv := cntD_some hc1
              have hpb2 : PendingBelow cv rest
                  (lcs.replace y (mergeFold false
                    (c0.increment_count
                      (TrieNode.mk rlf rcn rft rft2 rsc rba rbd rcs).cntD) rcs)) := by
                refine pendingBelow_found (keysND_of_childrenWF hcw) hl ?_ hrk hpb
                rw [hc2c, cntD_some hcc, hrcd]
              refine mergeFold_nodeWF rest _ cv ?_ ?_ hpb2 ?_ ?_
              · simp [TrieNode.update_likelihood, TrieNode.setChildren,
                  TrieNode.count, hc]
              · simp only [TrieNode.update_likelihood, TrieNode.setChildren,
                  TrieNode.children, hc1d]
                refine ⟨⟨cv, hc, h1, ?_, ?_, ?_, rfl, rfl, ?_⟩, ?_⟩
                · rw [Children.sumCnt_replace lcs y _ c0 hl, hc2c, hrcd,
                    cntD_some hcc]
                  ring
                · rw [Children.sumCnt2_replace lcs y _ c0 hl, hc2c, hrcd,
                    cntD_some hcc]
                  ring
                · rw [Children.sumCnt_replace lcs y _ c0 hl,
                    Children.sumCnt2_replace lcs y _ c0 hl, hc2c, hrcd,
                    cntD_some hcc]
                  ring_nf
                · exact childrenBelow_of_pending hpb2 hrestwf
                · exact childrenWF_replace hcw hl hc2wf hc2lf
              · simp only [TrieNode.update_likelihood, TrieNode.setChildren,
                  TrieNode.longform]
                exact hrestwf
              · exact hrestb

/-- Invariant preservation for the merge of two non-root subtrees: the left
count has already absorbed the right count, which is what the slack
`lcv - rcv` in the dominance hypothesis records. -/
theorem mergeNode_nodeWF : ∀ (r l : TrieNode) (lcv rcv : Int),
    l.count = some lcv → NodeWF l → NodeWF r → l.longform = r.longform →
    r.count = some rcv → rcv ≤ lcv →
    ChildrenBelow (lcv - rcv) l.children →
    NodeWF (mergeFold false l r.children)
  | .mk rlf rcn rft rft2 rsc rba rbd rcs, l, lcv, rcv, hlc, hlwf, hrwf, hlf,
      hrc, hrle, hbel => by
      obtain ⟨rcv2, hrc2, hr1, _, _, _, _, _, hrbel, hrcw⟩ := nodeWF_elim hrwf
      simp only [TrieNode.count] at hrc
      simp only [TrieNode.count, TrieNode.children, TrieNode.longform]
        at hrc2 hrbel hrcw
      rw [hrc] at hrc2
      injection hrc2 with hrc2
      subst hrc2
      simp only [TrieNode.children]
      refine mergeFold_nodeWF rcs l lcv hlc hlwf ?_ ?_ ?_
      · have : ChildrenBelow ((lcv - rcv) + rcv) l.children :=
          childrenBelow_mono (by omega) _ hbel
        have h2 : ∀ z, pendCnt rcs z ≤ rcv := fun z =>
          pendCnt_le hrbel (by omega) z
        have := pendingBelow_intro hbel h2
        simpa using this
      · rw [hlf]
        simpa [TrieNode.longform] using hrcw
      · exact childrenBelow_mono hrle _ hrbel

end

/-- Invariant preservation for the merge loop at the root (no likelihood
updates there: the root's sentinel fields survive). -/
theorem mergeFold_rootWF : ∀ (rs : Children) (l : TrieNode),
    RootWF l → ChildrenWF [] rs → RootWF (mergeFold true l rs)
  | .nil, l, h, _ => h
  | .cons y rc rest, .mk lf c ft ft2 s ba bd lcs, h, hrs => by
      cases rc with
      | mk rlf rcn rft rft2 rsc rba rbd rcs =>
          obtain ⟨hlf, hcn, hft, hft2, hs, hba, hbd, hcw⟩ := h
          subst hlf hcn hft hft2 hs hba hbd
          simp only [ChildrenWF] at hrs
          obtain ⟨hrcwf, hrclf, hrk, hrestwf⟩ := hrs
          simp only [mergeFold, mergeStep, TrieNode.children]
          cases hl : Children.lookup y lcs with
          | none =>
              simp only [hl, if_pos]
              refine mergeFold_rootWF rest _ ?_ hrestwf
              exact ⟨rfl, rfl, rfl, rfl, rfl, rfl, rfl,
                childrenWF_snoc hcw hrcwf hrclf (hasKey_false_of_lookup_none hl)⟩
          | some c0 =>
              simp only [hl, if_pos]
              obtain ⟨hwf0, hlf0⟩ := childrenWF_lookup hcw hl
              obtain ⟨ccv, hcc, hcc1, _, _, _, _, _, hbel0, hcw0⟩ :=
                nodeWF_elim hwf0
              obtain ⟨rcv, hrcc, hr1, -⟩ := nodeWF_elim hrcwf
              simp only [TrieNode.count] at hrcc
              have hrcd : (TrieNode.mk rlf rcn rft rft2 rsc rba rbd rcs).cntD
                  = rcv := by simp [TrieNode.cntD, TrieNode.count, hrcc]
              have hc1 : (c0.increment_count
                  (TrieNode.mk rlf rcn rft rft2 rsc rba rbd rcs).cntD).count
                  = some (ccv + rcv) := by
                rw [hrcd]; exact increment_count_count c0 rcv ccv hcc
              have hwf1 : NodeWF (c0.increment_count
                  (TrieNode.mk rlf rcn rft rft2 rsc rba rbd rcs).cntD) := by
                refine nodeWF_increment hwf0 ?_
                rw [hrcd]; omega
              have hlfeq : (c0.increment_count
                  (TrieNode.mk rlf rcn rft rft2 rsc rba rbd rcs).cntD).longform
                  = (TrieNode.mk rlf rcn rft rft2 rsc rba rbd rcs).longform := by
                rw [increment_count_longform, hlf0, ← hrclf]
              have hbelc : ChildrenBelow ((ccv + rcv) - rcv)
                  (c0.increment_count
                    (TrieNode.mk rlf rcn rft rft2 rsc rba rbd rcs).cntD).children := by
                rw [increment_count_children]
                exact childrenBelow_mono (by omega) _ hbel0
              have hc2wf : NodeWF (mergeFold false
                  (c0.increment_count
                    (TrieNode.mk rlf rcn rft rft2 rsc rba rbd rcs).cntD) rcs) :=
                mergeNode_nodeWF (TrieNode.mk rlf rcn rft rft2 rsc rba rbd rcs)
                  _ (ccv + rcv) rcv hc1 hwf1 hrcwf hlfeq
                  (by simp [TrieNode.count, hrcc]) (by omega) hbelc
              have htop := mergeFold_top rcs false
                (c0.increment_count
                  (TrieNode.mk rlf rcn rft rft2 rsc rba rbd rcs).cntD)
              have hc2lf : (mergeFold false
                  (c0.increment_count
                    (TrieNode.mk rlf rcn rft rft2 rsc rba rbd rcs).cntD) rcs).longform
                  = c0.longform := by
                rw [htop.2.1, increment_count_longform]
              refine mergeFold_rootWF rest _ ?_ hrestwf
              exact ⟨rfl, rfl, rfl, rfl, rfl, rfl, rfl,
                childrenWF_replace hcw hl hc2wf hc2lf⟩

theorem rootWF_rootNode : RootWF rootNode :=
  ⟨rfl, rfl, rfl, rfl, rfl, rfl, rfl, trivial⟩

/-- Every reachable trie satisfies the full invariant. -/
theorem reached_rootWF {t : TrieNode} (h : Reached t) : RootWF t := by
  induction h with
  | init => exact rootWF_rootNode
  | ingest ts _ ih => exact addTokens_rootWF ts _ ih
  | @merge t2 s2 _ _ ih1 ih2 =>
      show RootWF (mergeFold true t2 s2.children)
      refine mergeFold_rootWF _ _ ih1 ?_
      cases s2 with
      | mk lf c ft ft2 sc ba bd cs =>
          obtain ⟨-, -, -, -, -, -, -, hcw⟩ := ih2
          exact hcw

mutual

theorem nodeWF_of_inTree : ∀ (n m : TrieNode), NodeWF n → InTree m n → NodeWF m
  | .mk lf c ft ft2 s ba bd cs, m, hwf, hin => by
      cases hin with
      | inl he => exact he ▸ hwf
      | inr hc =>
          obtain ⟨-, hcw⟩ := hwf
          exact nodeWF_of_inChildren cs lf m hcw hc

theorem nodeWF_of_inChildren : ∀ (cs : Children) (lf : List String) (m : TrieNode),
    ChildrenWF lf cs → InChildren m cs → NodeWF m
  | .nil, _, m, _, h => h.elim
  | .cons tk c rest, lf, m, hwf, h => by
      simp only [ChildrenWF] at hwf
      cases h with
      | inl ht => exact nodeWF_of_inTree c m hwf.1 ht
      | inr hr => exact nodeWF_of_inChildren rest lf m hwf.2.2.2 hr

end

theorem nodeWF_of_strict {t m : TrieNode} (h : Reached t)
    (hm : InChildren m t.children) : NodeWF m := by
  have hroot := reached_rootWF h
  cases t with
  | mk lf c ft ft2 s ba bd cs =>
      obtain ⟨-, -, -, -, -, -, -, hcw⟩ := hroot
      exact nodeWF_of_inChildren cs [] m hcw hm

/-- C1: in any trie reachable by construction, ingestions and merges,
every non-root node's incrementally maintained `sum_ft` equals the sum of
its children's counts, `sum_ft2` the sum of their squares, and `score`
equals `count - sum_ft2/sum_ft` (`count` itself when `sum_ft = 0`), even
though the code never recomputes them from the children. -/
theorem statistics_invariant (t : TrieNode) (h : Reached t) (m : TrieNode)
    (hm : InChildren m t.children) :
    m.sum_ft = m.children.sumCnt ∧ m.sum_ft2 = m.children.sumCnt2 ∧
      m.score = (m.cntD : ℚ) - TrieNode.ratioTerm m.sum_ft m.sum_ft2 := by
  obtain ⟨cv, hc, h1, hft, hft2, hs, -⟩ := nodeWF_elim (nodeWF_of_strict h hm)
  refine ⟨hft, hft2, ?_⟩
  rw [hft, hft2, hs, cntD_some hc]

/-- The non-root node of the single-candidate trie. -/
def nodeAplain : TrieNode := .mk ["a"] (some 1) 0 0 1 (-1) (-1) .nil

/-- Witness for `statistics_invariant` at a concrete reachable trie. -/
theorem statistics_invariant_witness :
    nodeAplain.sum_ft = nodeAplain.children.sumCnt ∧
      nodeAplain.sum_ft2 = nodeAplain.children.sumCnt2 ∧
      nodeAplain.score = (nodeAplain.cntD : ℚ)
        - TrieNode.ratioTerm nodeAplain.sum_ft nodeAplain.sum_ft2 :=
  statistics_invariant trieA (Reached.ingest ["a"] Reached.init) nodeAplain
    (show InTree nodeAplain nodeAplain ∨ InChildren nodeAplain Children.nil
      from Or.inl (inTree_refl _))

/-! ## Score bounds (C10) -/

theorem sumCnt_nonneg {lf : List String} :
    ∀ {cs : Children}, ChildrenWF lf cs → 0 ≤ cs.sumCnt := by
  intro cs
  induction cs with
  | nil => intro; simp [Children.sumCnt]
  | cons tk c rest ih =>
      intro h
      simp only [ChildrenWF] at h
      obtain ⟨cv, hc, h1, -⟩ := nodeWF_elim h.1
      have := ih h.2.2.2
      simp only [Children.sumCnt]
      rw [cntD_some hc]
      omega

theorem sumCnt2_nonneg : ∀ (cs : Children), 0 ≤ cs.sumCnt2 := by
  intro cs
  induction cs with
  | nil => simp [Children.sumCnt2]
  | cons tk c rest ih =>
      simp only [Children.sumCnt2]
      have := mul_self_nonneg c.cntD
      omega

theorem sumCnt2_le_mul {lf : List String} {b : Int} :
    ∀ {cs : Children}, ChildrenWF lf cs → ChildrenBelow b cs →
    cs.sumCnt2 ≤ b * cs.sumCnt := by
  intro cs
  induction cs with
  | nil => intro _ _; simp [Children.sumCnt, Children.sumCnt2]
  | cons tk c rest ih =>
      intro hwf hb
      simp only [ChildrenWF] at hwf
      obtain ⟨cv, hc, h1, -⟩ := nodeWF_elim hwf.1
      have h2 := ih hwf.2.2.2 hb.2
      have h3 : c.cntD * c.cntD ≤ b * c.cntD := by
        have h4 : 0 ≤ c.cntD := by rw [cntD_some hc]; omega
        exact mul_le_mul_of_nonneg_right hb.1 h4
      simp only [Children.sumCnt, Children.sumCnt2]
      have h5 : b * (c.cntD + rest.sumCnt) = b * c.cntD + b * rest.sumCnt := by
        ring
      omega

theorem childrenBelow_cmem {b : Int} : ∀ {cs : Children} {c : TrieNode},
    ChildrenBelow b cs → CMem c cs → c.cntD ≤ b := by
  intro cs
  induction cs with
  | nil => intro c _ h; exact h.elim
  | cons tk c2 rest ih =>
      intro c hb h
      cases h with
      | inl he => exact he ▸ hb.1
      | inr ht => exact ih hb.2 ht

/-- C10: in any reachable trie, every non-root node's score lies between
`0` and its count, and every direct child's count is at most its parent's
count. -/
theorem score_bounded_by_count (t : TrieNode) (h : Reached t) (m : TrieNode)
    (hm : InChildren m t.children) :
    0 ≤ m.score ∧ m.score ≤ (m.cntD : ℚ) ∧
      ∀ c, CMem c m.children → c.cntD ≤ m.cntD := by
  have hwf := nodeWF_of_strict h hm
  obtain ⟨cv, hc, h1, hft, hft2, hs, -, -, hbel, hcw⟩ := nodeWF_elim hwf
  rw [cntD_some hc]
  have hftn : 0 ≤ m.children.sumCnt := sumCnt_nonneg hcw
  have hft2n : 0 ≤ m.children.sumCnt2 := sumCnt2_nonneg m.children
  have hle : m.children.sumCnt2 ≤ cv * m.children.sumCnt :=
    sumCnt2_le_mul hcw hbel
  have hrt : 0 ≤ TrieNode.ratioTerm m.children.sumCnt m.children.sumCnt2 ∧
      TrieNode.ratioTerm m.children.sumCnt m.children.sumCnt2 ≤ (cv : ℚ) := by
    unfold TrieNode.ratioTerm
    by_cases hz : m.children.sumCnt = 0
    · simp [hz]
      exact_mod_cast le_trans (by norm_num : (0 : Int) ≤ 1) h1
    · rw [if_neg hz]
      have hpos : (0 : ℚ) < (m.children.sumCnt : ℚ) := by
        have : 0 < m.children.sumCnt := lt_of_le_of_ne hftn (Ne.symm hz)
        exact_mod_cast this
      constructor
      · apply div_nonneg _ (le_of_lt hpos)
        exact_mod_cast hft2n
      · rw [div_le_iff₀ hpos]
        exact_mod_cast hle
  refine ⟨?_, ?_, fun c hcm => childrenBelow_cmem hbel hcm⟩
  · rw [hs]
    have := hrt.2
    linarith
  · rw [hs]
    have := hrt.1
    linarith

/-- Witness for `score_bounded_by_count` at a concrete reachable trie. -/
theorem score_bounded_by_count_witness :
    0 ≤ nodeAplain.score ∧ nodeAplain.score ≤ (nodeAplain.cntD : ℚ) ∧
      ∀ c, CMem c nodeAplain.children → c.cntD ≤ nodeAplain.cntD :=
  score_bounded_by_count trieA (Reached.ingest ["a"] Reached.init) nodeAplain
    (show InTree nodeAplain nodeAplain ∨ InChildren nodeAplain Children.nil
      from Or.inl (inTree_refl _))

/-! ## Serialization (C6)

The `_longforms` keys are serialized with Python `str(key)` on a tuple of
strings and parsed back with `ast.literal_eval`.  The character-level
model below reproduces `repr` of a string (quote choice: single quotes
unless the string contains a single quote and no double quote; backslashes
and the chosen quote escaped with a backslash — escapes of further control
characters are immaterial to the round trip and are modelled as the raw
character) and a parser for the tuple literals `str` produces. -/

/-- Escape backslashes and the chosen quote character, as Python `repr`
does. -/
def escQ (q : Char) : List Char → List Char
  | [] => []
  | c :: rest =>
      if c = '\\' ∨ c = q then '\\' :: c :: escQ q rest
      else c :: escQ q rest

/-- Python `repr` quote choice for a string. -/
def chooseQuote (s : List Char) : Char :=
  if '\'' ∈ s ∧ ¬ ('"' ∈ s) then '"' else '\''

/-- Python `repr` of a string, over characters. -/
def reprStrChars (s : List Char) : List Char :=
  chooseQuote s :: (escQ (chooseQuote s) s ++ [chooseQuote s])

/-- The comma-space-joined items of a multi-element tuple `repr`. -/
def reprItemsChars : List (List Char) → List Char
  | [] => []
  | [x] => reprStrChars x
  | x :: xs => reprStrChars x ++ ',' :: ' ' :: reprItemsChars xs

/-- Python `str` of a tuple of strings, over characters: `()`, `('a',)`,
`('a', 'b')`. -/
def pyReprTupleChars : List (List Char) → List Char
  | [] => ['(', ')']
  | [x] => '(' :: (reprStrChars x ++ [',', ')'])
  | x :: xs => '(' :: (reprItemsChars (x :: xs) ++ [')'])

/-- Parse a quoted string body up to the closing quote, undoing
backslash escapes. -/
def parseStrBody (q : Char) : List Char → Option (List Char × List Char)
  | [] => none
  | c :: rest =>
      if c = q then some ([], rest)
      else if c = '\\' then
        match rest with
        | [] => none
        | d :: rest2 => (parseStrBody q rest2).map (fun p => (d :: p.1, p.2))
      else (parseStrBody q rest).map (fun p => (c :: p.1, p.2))

/-- Parse one quoted string literal. -/
def parseItem : List Char → Option (List Char × List Char)
  | [] => none
  | q :: rest => if q = '\'' ∨ q = '"' then parseStrBody q rest else none

/-- Parse the items of a tuple literal after the opening parenthesis
(`fuel` bounds the number of items; the caller passes the input length). -/
def parseItems : Nat → List Char → Option (List (List Char))
  | 0, _ => none
  | fuel + 1, cs =>
      match parseItem cs with
      | none => none
      | some (s, rest) =>
          match rest with
          | [')'] => some [s]
          | ',' :: [')'] => some [s]
          | ',' :: ' ' :: more => (parseItems fuel more).map (s :: ·)
          | _ => none

/-- The model of `ast.literal_eval` on the tuple literals `str`
produces. -/
def pyParseTupleChars : List Char → Option (List (List Char))
  | '(' :: rest =>
      match rest with
      | [')'] => some []
      | _ => parseItems rest.length rest
  | _ => none

def pyReprTuple (xs : List String) : String :=
  (pyReprTupleChars (xs.map String.toList)).asString

def pyParseTuple (s : String) : Option (List String) :=
  (pyParseTupleChars s.toList).map (fun l => l.map List.asString)

theorem parseStrBody_quote (q : Char) (rest : List Char) :
    parseStrBody q (q :: rest) = some ([], rest) := by
  rw [parseStrBody.eq_def]
  simp

theorem parseStrBody_esc (q d : Char) (rest : List Char) (h : q ≠ '\\') :
    parseStrBody q ('\\' :: d :: rest)
      = (parseStrBody q rest).map (fun p => (d :: p.1, p.2)) := by
  rw [parseStrBody.eq_def]
  simp [Ne.symm h]

theorem parseStrBody_other (q c : Char) (rest : List Char) (h1 : c ≠ q)
    (h2 : c ≠ '\\') :
    parseStrBody q (c :: rest)
      = (parseStrBody q rest).map (fun p => (c :: p.1, p.2)) := by
  rw [parseStrBody.eq_def]
  simp [h1, h2]

theorem parseStrBody_escQ (q : Char) (hq : q ≠ '\\') :
    ∀ (s rest : List Char),
    parseStrBody q (escQ q s ++ (q :: rest)) = some (s, rest)
  | [], rest => by
      simp only [escQ, List.nil_append]
      exact parseStrBody_quote q rest
  | c :: s2, rest => by
      by_cases hc : c = '\\' ∨ c = q
      · simp only [escQ, hc, if_pos, List.cons_append]
        rw [parseStrBody_esc q c _ hq, parseStrBody_escQ q hq s2 rest]
        rfl
      · push_neg at hc
        simp only [escQ, hc.1, hc.2, or_self, if_false, List.cons_append]
        rw [parseStrBody_other q c _ hc.2 hc.1, parseStrBody_escQ q hq s2 rest]
        rfl

theorem chooseQuote_ok (s : List Char) :
    (chooseQuote s = '\'' ∨ chooseQuote s = '"') ∧ chooseQuote s ≠ '\\' := by
  unfold chooseQuote
  by_cases h : '\'' ∈ s ∧ ¬ ('"' ∈ s) <;> simp [h]

theorem parseItem_reprStr (s rest : List Char) :
    parseItem (reprStrChars s ++ rest) = some (s, rest) := by
  obtain ⟨hq, hbs⟩ := chooseQuote_ok s
  unfold reprStrChars parseItem
  have hgood : (chooseQuote s = '\'' ∨ chooseQuote s = '"') = True := by
    simp [hq]
  simp only [List.cons_append, hgood, if_pos, trivial, reduceIte]
  rw [List.append_assoc]
  simpa using parseStrBody_escQ (chooseQuote s) hbs s rest

theorem parseItems_single (x : List Char) (fuel : Nat) :
    parseItems (fuel + 1) (reprStrChars x ++ [',', ')']) = some [x] := by
  rw [parseItems]
  rw [parseItem_reprStr x [',', ')']]
  rfl

theorem parseItems_last (x : List Char) (fuel : Nat) :
    parseItems (fuel + 1) (reprStrChars x ++ [')']) = some [x] := by
  rw [parseItems]
  rw [parseItem_reprStr x [')']]
  rfl

theorem parseItems_repr : ∀ (xs : List (List Char)) (x : List Char) (fuel : Nat),
    xs.length ≤ fuel →
    parseItems (fuel + 1) (reprItemsChars (x :: xs) ++ [')']) = some (x :: xs)
  | [], x, fuel, _ => by
      simp only [reprItemsChars]
      exact parseItems_last x fuel
  | y :: ys, x, fuel, hf => by
      simp only [reprItemsChars, List.append_assoc, List.cons_append]
      rw [parseItems]
      rw [parseItem_reprStr x (',' :: ' ' :: (reprItemsChars (y :: ys) ++ [')']))]
      simp only [List.length_cons] at hf
      cases fuel with
      | zero => omega
      | succ f =>
          have := parseItems_repr ys y f (by omega)
          simp only [this]
          rfl

theorem reprItems_length (x : List Char) : ∀ xs : List (List Char),
    xs.length + 1 ≤ (reprItemsChars (x :: xs)).length := by
  intro xs
  induction xs generalizing x with
  | nil => simp [reprItemsChars, reprStrChars]
  | cons y ys ih =>
      have h1 := ih (x := y)
      simp only [reprItemsChars, List.length_append, List.length_cons,
        List.length] at h1 ⊢
      simp [reprStrChars]
      omega

/-- The full Python tuple round trip over characters. -/
theorem pyParseTupleChars_repr : ∀ xs : List (List Char),
    pyParseTupleChars (pyReprTupleChars xs) = some xs
  | [] => rfl
  | [x] => by
      obtain ⟨hq, -⟩ := chooseQuote_ok x
      obtain ⟨T, hT⟩ : ∃ T, reprStrChars x ++ [',', ')'] = chooseQuote x :: T :=
        ⟨escQ (chooseQuote x) x ++ [chooseQuote x] ++ [',', ')'],
         by simp [reprStrChars]⟩
      show pyParseTupleChars ('(' :: (reprStrChars x ++ [',', ')'])) = some [x]
      rcases hq with hq | hq <;>
        · rw [hq] at hT
          rw [hT]
          show parseItems (T.length + 1) _ = some [x]
          rw [← hT]
          exact parseItems_single x T.length
  | x :: y :: ys => by
      obtain ⟨hq, -⟩ := chooseQuote_ok x
      obtain ⟨T, hT⟩ : ∃ T,
          reprItemsChars (x :: y :: ys) ++ [')'] = chooseQuote x :: T :=
        ⟨escQ (chooseQuote x) x ++ [chooseQuote x]
            ++ (',' :: ' ' :: (reprItemsChars (y :: ys) ++ [')'])),
         by simp [reprItemsChars, reprStrChars]⟩
      have hlen : (y :: ys).length ≤ T.length := by
        have h1 := reprItems_length x (y :: ys)
        have h2 := congrArg List.length hT
        simp only [List.length_append, List.length_cons] at h2
        simp only [List.length_cons] at h1 ⊢
        omega
      show pyParseTupleChars ('(' :: (reprItemsChars (x :: y :: ys) ++ [')']))
        = some (x :: y :: ys)
      rcases hq with hq | hq <;>
        · rw [hq] at hT
          rw [hT]
          show parseItems (T.length + 1) _ = some (x :: y :: ys)
          rw [← hT]
          exact parseItems_repr (y :: ys) x T.length hlen

/-- String-level Python tuple round trip: `literal_eval(str(key))`
recovers the key tuple. -/
theorem pyParseTuple_repr (xs : List String) :
    pyParseTuple (pyReprTuple xs) = some xs := by
  simp only [pyParseTuple, pyReprTuple, List.toList_asString,
    pyParseTupleChars_repr, Option.map_some']
  congr 1
  simp only [List.map_map]
  conv_rhs => rw [show xs = xs.map id from (List.map_id xs).symm]
  exact List.map_congr_left (fun s _ => String.asString_toList s)

/-! ## Serialization round trip (C6) -/

mutual

/-- One value of the dictionary `_TrieNode.to_dict` produces per child:
the child's `count`, `score`, `sum_ft`, `sum_ft2`, `longform` and the
recursive dictionary of its children. -/
inductive NodeEntry : Type where
  | mk (count : Option Int) (score : ℚ) (sum_ft sum_ft2 : Int)
      (longform : List String) (children : EntryDict) : NodeEntry

/-- An insertion-ordered dictionary of child entries, keyed by token. -/
inductive EntryDict : Type where
  | nil : EntryDict
  | cons (token : String) (entry : NodeEntry) (rest : EntryDict) : EntryDict

end

mutual

/-- The entry `to_dict` stores for one child node. -/
def entryOf : TrieNode → NodeEntry
  | .mk lf c ft ft2 s _ _ cs => .mk c s ft ft2 lf (childrenToDict cs)

/-- `_TrieNode.to_dict`: one entry per child, in insertion order (the
`if not self.children: return {}` branch is the `nil` case). -/
def childrenToDict : Children → EntryDict
  | .nil => .nil
  | .cons tk c rest => .cons tk (entryOf c) (childrenToDict rest)

end

/-- `_TrieNode.to_dict` applied at a node. -/
def TrieNode.to_dict (t : TrieNode) : EntryDict := childrenToDict t.children

mutual

/-- `_load_trie_helper`: a fresh `_TrieNode` whose `count`, `score`,
`sum_ft`, `sum_ft2` are overwritten from the entry; the propagation
fields keep the `__init__` sentinels `-1`. -/
def loadEntry : NodeEntry → TrieNode
  | .mk c s ft ft2 lf d => .mk lf c ft ft2 s (-1) (-1) (loadChildren d)

/-- The recursive `for key, value in entry['children'].items()` loop. -/
def loadChildren : EntryDict → Children
  | .nil => .nil
  | .cons tk e rest => .cons tk (loadEntry e) (loadChildren rest)

end

/-- `adeft.discover.load_trie`: a fresh root (`_TrieNode(shortform=...)`,
whose slots equal `rootNode`'s) whose children are loaded from the
dictionary. -/
def load_trie (d : EntryDict) : TrieNode :=
  TrieNode.mk [] none 0 0 (-1) (-1) (-1) (loadChildren d)

mutual

theorem loadEntry_entryOf : ∀ n : TrieNode, NodeWF n → loadEntry (entryOf n) = n
  | .mk lf c ft ft2 s ba bd cs, h => by
      obtain ⟨⟨cv, hc, h1, hft, hft2, hs, hba, hbd, hbel⟩, hcw⟩ := h
      simp only [entryOf, loadEntry]
      rw [loadChildren_childrenToDict cs lf hcw, hba, hbd]

theorem loadChildren_childrenToDict : ∀ (cs : Children) (lf : List String),
    ChildrenWF lf cs → loadChildren (childrenToDict cs) = cs
  | .nil, _, _ => rfl
  | .cons tk c rest, lf, h => by
      simp only [childrenToDict, loadChildren]
      rw [loadEntry_entryOf c h.1, loadChildren_childrenToDict rest lf h.2.2.2]

end

/-- Any well-formed trie survives the `to_dict`/`load_trie` round trip. -/
theorem load_trie_to_dict {t : TrieNode} (h : RootWF t) :
    load_trie t.to_dict = t := by
  cases t with
  | mk lf c ft ft2 s ba bd cs =>
      obtain ⟨h1, h2, h3, h4, h5, h6, h7, hcw⟩ := h
      simp only [TrieNode.to_dict, load_trie, TrieNode.children]
      rw [loadChildren_childrenToDict cs [] hcw, h1, h2, h3, h4, h5, h6, h7]

/-- The dictionary `AdeftMiner.to_dict` builds: the shortform, the trie
dictionary, the `_longforms` map with keys rendered through `str`, and
the window.  (The `stemmer` entry serializes the external
`WatchfulStemmer` state, which is not part of the embedded core.) -/
structure MinerDict : Type where
  shortform : String
  internal_trie : EntryDict
  longforms : List (String × ℚ)
  window : Nat

/-- `AdeftMiner.to_dict`. -/
def AdeftMiner.to_dict (m : AdeftMiner) : MinerDict :=
  { shortform := m.shortform
    internal_trie := m.internal_trie.to_dict
    longforms := m.longforms.map (fun p => (pyReprTuple p.1, p.2))
    window := m.window }

/-- The `{literal_eval(key): value, ...}` comprehension of
`load_adeft_miner_from_dict`; `none` models a `literal_eval` failure. -/
def loadLongforms : List (String × ℚ) → Option Longforms
  | [] => some []
  | (k, v) :: rest =>
      match pyParseTuple k with
      | none => none
      | some key => (loadLongforms rest).map (fun l => (key, v) :: l)

/-- `adeft.discover.load_adeft_miner_from_dict`: a fresh miner (so both
staleness flags are the `__init__` value `False`) whose trie and
`_longforms` are loaded from the dictionary. -/
def load_adeft_miner_from_dict (d : MinerDict) : Option AdeftMiner :=
  (loadLongforms d.longforms).map (fun lfs =>
    { shortform := d.shortform
      window := d.window
      internal_trie := load_trie d.internal_trie
      longforms := lfs
      scores_propagated := false
      alignment_scores_computed := false })

theorem loadLongforms_roundtrip : ∀ lfs : Longforms,
    loadLongforms (lfs.map (fun p => (pyReprTuple p.1, p.2))) = some lfs
  | [] => rfl
  | (k, v) :: rest => by
      simp only [List.map_cons]
      rw [loadLongforms, pyParseTuple_repr, loadLongforms_roundtrip rest]
      rfl

/-- Miner states reachable by construction, ingestion and merge. -/
inductive ReachedM : AdeftMiner → Prop where
  | init (sf : String) (w : Nat) : ReachedM (minerInit sf w)
  | ingest (st : String → String) (cands : List (List String))
      {m : AdeftMiner} : ReachedM m → ReachedM (m.process_texts st cands)
  | merge {m other : AdeftMiner} : ReachedM m → ReachedM other →
      ReachedM (m.update other)

theorem reached_addCand_foldl (st : String → String) :
    ∀ (cands : List (List String)) (m : AdeftMiner),
    Reached m.internal_trie →
    Reached ((cands.foldl (fun acc c => acc.addCand st c) m).internal_trie)
  | [], _, h => h
  | c :: rest, m, h => by
      simp only [List.foldl_cons]
      exact reached_addCand_foldl st rest (m.addCand st c) (Reached.ingest _ h)

/-- Every reachable miner carries a reachable trie, and both staleness
flags are `False` (set by `__init__` and by `process_texts`, untouched
by `update`). -/
theorem reachedM_state {m : AdeftMiner} (h : ReachedM m) :
    Reached m.internal_trie ∧ m.scores_propagated = false ∧
      m.alignment_scores_computed = false := by
  induction h with
  | init sf w => exact ⟨Reached.init, rfl, rfl⟩
  | ingest st cands hm ih =>
      exact ⟨reached_addCand_foldl st cands _ ih.1, rfl, rfl⟩
  | merge hm ho ihm iho =>
      exact ⟨Reached.merge ihm.1 iho.1, ihm.2.1, ihm.2.2⟩

/-- C6: for every miner state reachable by construction, ingestion and
merge, `load_adeft_miner_from_dict(miner.to_dict())` rebuilds a miner
whose shortform, window, every trie node's
longform/count/score/sum_ft/sum_ft2/children, and flat `_longforms` map
equal the original's (full structural equality); and the `str` rendering
of every reverse-order token tuple key parses back through
`literal_eval` into exactly that tuple. -/
theorem miner_serialization_roundtrip (m : AdeftMiner) (h : ReachedM m) :
    load_adeft_miner_from_dict m.to_dict = some m ∧
      ∀ key : List String, pyParseTuple (pyReprTuple key) = some key := by
  obtain ⟨hre, hsp, hal⟩ := reachedM_state h
  refine ⟨?_, fun key => pyParseTuple_repr key⟩
  cases m with
  | mk sf w t lfs sp al =>
      have hsp2 : sp = false := hsp
      have hal2 : al = false := hal
      subst hsp2
      subst hal2
      simp only [AdeftMiner.to_dict, load_adeft_miner_from_dict]
      rw [loadLongforms_roundtrip lfs, Option.map_some']
      rw [load_trie_to_dict (reached_rootWF hre)]

/-- The round trip, evaluated at the miner obtained by ingesting the
single candidate `["a"]` into a fresh miner for shortform `AD`. -/
theorem miner_serialization_roundtrip_witness :
    load_adeft_miner_from_dict
        ((minerInit "AD" 100).process_texts id [["a"]]).to_dict
      = some ((minerInit "AD" 100).process_texts id [["a"]]) ∧
      pyParseTuple (pyReprTuple ["a"]) = some ["a"] := by
  have h := miner_serialization_roundtrip
    ((minerInit "AD" 100).process_texts id [["a"]])
    (ReachedM.ingest id [["a"]] (ReachedM.init "AD" 100))
  exact ⟨h.1, h.2 ["a"]⟩

/-! ## Batch equivalence: sequential ingestion versus merge (C2)

The two incremental statistics updates (`increment_count` and
`update_likelihood`) telescope, so updates at distinct keys of a node
commute, a batch update equals a sequence of unit updates, and merging a
one-candidate trie equals ingesting the candidate.  These record-surgery
lemmas drive the commutation argument. -/

theorem update_likelihood_children (n : TrieNode) (a b : Int) :
    (n.update_likelihood a b).children = n.children := by
  cases n; rfl

theorem update_likelihood_longform (n : TrieNode) (a b : Int) :
    (n.update_likelihood a b).longform = n.longform := by
  cases n; rfl

theorem update_likelihood_count (n : TrieNode) (a b : Int) :
    (n.update_likelihood a b).count = n.count := by
  cases n; rfl

theorem setChildren_update_likelihood (n : TrieNode) (cs : Children)
    (a b : Int) :
    (n.setChildren cs).update_likelihood a b
      = (n.update_likelihood a b).setChildren cs := by
  cases n; rfl

theorem setChildren_children (n : TrieNode) (cs : Children) :
    (n.setChildren cs).children = cs := by
  cases n; rfl

theorem setChildren_setChildren (n : TrieNode) (cs cs2 : Children) :
    (n.setChildren cs).setChildren cs2 = n.setChildren cs2 := by
  cases n; rfl

theorem setChildren_increment (n : TrieNode) (cs : Children) (e : Int) :
    (n.setChildren cs).increment_count e
      = (n.increment_count e).setChildren cs := by
  cases n; rfl

/-- Two likelihood updates on the same node commute: `sum_ft`/`sum_ft2`
increments are additive and the score adjustments telescope to the same
start and end ratios. -/
theorem update_likelihood_comm (n : TrieNode) (a b c d : Int) :
    (n.update_likelihood a b).update_likelihood c d
      = (n.update_likelihood c d).update_likelihood a b := by
  cases n with
  | mk lf cn ft ft2 s ba bd cs =>
      simp only [TrieNode.update_likelihood]
      have h1 : ft + d + b = ft + b + d := by ring
      have h2 : ft2 + 2 * c * d - d ^ 2 + 2 * a * b - b ^ 2
          = ft2 + 2 * a * b - b ^ 2 + 2 * c * d - d ^ 2 := by ring
      rw [h1, h2]
      congr 1
      ring

/-- A batch update with increment `e + 1` equals a batch update with
increment `e` followed by a unit update at the incremented count. -/
theorem update_likelihood_batch (n : TrieNode) (a e : Int) :
    (n.update_likelihood a e).update_likelihood (a + 1) 1
      = n.update_likelihood (a + 1) (e + 1) := by
  cases n with
  | mk lf cn ft ft2 s ba bd cs =>
      simp only [TrieNode.update_likelihood]
      have h1 : ft + e + 1 = ft + (e + 1) := by ring
      have h2 : ft2 + 2 * a * e - e ^ 2 + 2 * (a + 1) * 1 - 1 ^ 2
          = ft2 + 2 * (a + 1) * (e + 1) - (e + 1) ^ 2 := by ring
      rw [h1, h2]
      congr 1
      ring

theorem increment_count_add (n : TrieNode) (e f : Int) :
    (n.increment_count e).increment_count f = n.increment_count (e + f) := by
  cases n with
  | mk lf c ft ft2 s ba bd cs =>
      simp only [TrieNode.increment_count, Option.map_map]
      congr 1
      · cases c <;> simp [Int.add_assoc]
      · push_cast; ring

theorem update_likelihood_increment (n : TrieNode) (a b e : Int) :
    (n.increment_count e).update_likelihood a b
      = (n.update_likelihood a b).increment_count e := by
  cases n with
  | mk lf c ft ft2 s ba bd cs =>
      simp only [TrieNode.increment_count, TrieNode.update_likelihood]
      congr 1
      ring

theorem replace_replace_ne (cs : Children) (x y : String) (v w : TrieNode)
    (h : x ≠ y) :
    (cs.replace x v).replace y w = (cs.replace y w).replace x v := by
  have h2 : y ≠ x := Ne.symm h
  induction cs with
  | nil => rfl
  | cons t c rest ih =>
      by_cases htx : t = x
      · subst htx
        simp [Children.replace, h, h2, ih]
      · by_cases hty : t = y <;> simp [Children.replace, htx, hty, h, h2, ih]

theorem replace_replace_self (cs : Children) (x : String) (v w : TrieNode) :
    (cs.replace x v).replace x w = cs.replace x w := by
  induction cs with
  | nil => rfl
  | cons t c rest ih =>
      by_cases htx : t = x <;> simp [Children.replace, htx, ih]

theorem replace_snoc_ne (cs : Children) (x y : String) (v r : TrieNode)
    (h : x ≠ y) :
    (cs.snoc y r).replace x v = (cs.replace x v).snoc y r := by
  have h2 : y ≠ x := Ne.symm h
  induction cs with
  | nil => simp [Children.snoc, Children.replace, h2]
  | cons t c rest ih =>
      by_cases htx : t = x <;>
        simp [Children.snoc, Children.replace, htx, h2, ih]

theorem replace_snoc_self (cs : Children) (x : String) (v w : TrieNode)
    (h : cs.hasKey x = false) :
    (cs.snoc x v).replace x w = cs.snoc x w := by
  induction cs with
  | nil => simp [Children.snoc, Children.replace]
  | cons t c rest ih =>
      simp only [Children.hasKey_cons, Bool.or_eq_false_iff] at h
      have ht : ¬ (t = x) := by simpa using h.1
      simp [Children.snoc, Children.replace, ht, ih h.2]

theorem mergeFold_snoc : ∀ (cs : Children) (isRoot : Bool) (l : TrieNode)
    (x : String) (v : TrieNode),
    mergeFold isRoot l (cs.snoc x v) = mergeStep isRoot (mergeFold isRoot l cs) x v
  | .nil, _, _, _, _ => rfl
  | .cons t c rest, isRoot, l, x, v => by
      simp only [Children.snoc, mergeFold]
      exact mergeFold_snoc rest isRoot (mergeStep isRoot l t c) x v

/-- Below the root, a merge step commutes with a pending count increment
on the receiving node (the increment touches only `count` and `score`,
which the step's likelihood update adjusts additively). -/
theorem mergeStep_increment (rc : TrieNode) (l : TrieNode) (tk : String)
    (e : Int) :
    mergeStep false (l.increment_count e) tk rc
      = (mergeStep false l tk rc).increment_count e := by
  cases rc with
  | mk rlf rcn rft rft2 rsc rba rbd rcs =>
      simp only [mergeStep, increment_count_children]
      cases hl : l.children.lookup tk with
      | none =>
          simp only [hl, Bool.false_eq_true, if_false, ← setChildren_increment,
            update_likelihood_increment]
      | some c =>
          simp only [hl, Bool.false_eq_true, if_false, ← setChildren_increment,
            update_likelihood_increment]

theorem mergeFold_increment : ∀ (rs : Children) (l : TrieNode) (e : Int),
    mergeFold false (l.increment_count e) rs
      = (mergeFold false l rs).increment_count e
  | .nil, _, _ => rfl
  | .cons tk rc rest, l, e => by
      simp only [mergeFold, mergeStep_increment]
      exact mergeFold_increment rest (mergeStep false l tk rc) e

theorem mergeStep_lookup_ne (isRoot : Bool) (l : TrieNode) (tk y : String)
    (rc : TrieNode) (h : y ≠ tk) :
    (mergeStep isRoot l tk rc).children.lookup y = l.children.lookup y := by
  cases rc with
  | mk rlf rcn rft rft2 rsc rba rbd rcs =>
      simp only [mergeStep]
      cases hl : l.children.lookup tk with
      | none =>
          cases isRoot <;>
            simp [hl, update_likelihood_children, setChildren_children,
              Children.lookup_snoc_ne l.children y tk _ (Ne.symm h)]
      | some c =>
          cases isRoot <;>
            simp [hl, update_likelihood_children, setChildren_children,
              Children.lookup_replace_ne l.children y tk _ (Ne.symm h)]

theorem mergeFold_lookup_ne : ∀ (rs : Children) (isRoot : Bool) (l : TrieNode)
    (y : String), rs.hasKey y = false →
    (mergeFold isRoot l rs).children.lookup y = l.children.lookup y
  | .nil, _, _, _, _ => rfl
  | .cons tk rc rest, isRoot, l, y, h => by
      simp only [Children.hasKey_cons, Bool.or_eq_false_iff] at h
      have htk : ¬ (tk = y) := by simpa using h.1
      rw [mergeFold,
        mergeFold_lookup_ne rest isRoot (mergeStep isRoot l tk rc) y h.2,
        mergeStep_lookup_ne isRoot l tk y rc (fun hh => htk hh.symm)]

theorem mergeStep_lookup_self (isRoot : Bool) (l : TrieNode) (tk : String)
    (rc : TrieNode) :
    ((mergeStep isRoot l tk rc).children.lookup tk).isSome = true := by
  cases rc with
  | mk rlf rcn rft rft2 rsc rba rbd rcs =>
      simp only [mergeStep]
      cases hl : l.children.lookup tk with
      | none =>
          cases isRoot <;>
            simp [update_likelihood_children, setChildren_children,
              Children.lookup_snoc_self l.children tk _
                (hasKey_false_of_lookup_none hl)]
      | some c =>
          cases isRoot <;>
            simp [hl, update_likelihood_children, setChildren_children,
              Children.lookup_replace_self l.children tk _ c hl]

/-- One merge step keeps the node's children map well-formed (the node's
own statistics are not constrained here, so the lemma applies to the
evolving left node at any point of the child loop). -/
theorem mergeStep_childrenWF (isRoot : Bool) (l : TrieNode) (tk : String)
    (rc : TrieNode) (hcw : ChildrenWF l.longform l.children) (hrcwf : NodeWF rc)
    (hrclf : rc.longform = l.longform ++ [tk]) :
    ChildrenWF l.longform (mergeStep isRoot l tk rc).children := by
  cases rc with
  | mk rlf rcn rft rft2 rsc rba rbd rcs =>
      simp only [mergeStep]
      cases hl : l.children.lookup tk with
      | none =>
          have hsn := childrenWF_snoc hcw hrcwf hrclf
            (hasKey_false_of_lookup_none hl)
          cases isRoot <;>
            simpa [update_likelihood_children, setChildren_children] using hsn
      | some c0 =>
          obtain ⟨hwf0, hlf0⟩ := childrenWF_lookup hcw hl
          obtain ⟨ccv, hcc, hcc1, -, -, -, -, -, hbel0, hcw0⟩ := nodeWF_elim hwf0
          obtain ⟨rcv, hrcc, hr1, -⟩ := nodeWF_elim hrcwf
          simp only [TrieNode.count] at hrcc
          have hrcd : (TrieNode.mk rlf rcn rft rft2 rsc rba rbd rcs).cntD
              = rcv := by simp [TrieNode.cntD, TrieNode.count, hrcc]
          have hc1 : (c0.increment_count
              (TrieNode.mk rlf rcn rft rft2 rsc rba rbd rcs).cntD).count
              = some (ccv + rcv) := by
            rw [hrcd]; exact increment_count_count c0 rcv ccv hcc
          have hwf1 : NodeWF (c0.increment_count
              (TrieNode.mk rlf rcn rft rft2 rsc rba rbd rcs).cntD) := by
            refine nodeWF_increment hwf0 ?_
            rw [hrcd]; omega
          have hlfeq : (c0.increment_count
              (TrieNode.mk rlf rcn rft rft2 rsc rba rbd rcs).cntD).longform
              = (TrieNode.mk rlf rcn rft rft2 rsc rba rbd rcs).longform := by
            rw [increment_count_longform, hlf0, ← hrclf]
          have hbelc : ChildrenBelow ((ccv + rcv) - rcv)
              (c0.increment_count
                (TrieNode.mk rlf rcn rft rft2 rsc rba rbd rcs).cntD).children := by
            rw [increment_count_children]
            exact childrenBelow_mono (by omega) _ hbel0
          have hc2wf : NodeWF (mergeFold false
              (c0.increment_count
                (TrieNode.mk rlf rcn rft rft2 rsc rba rbd rcs).cntD) rcs) :=
            mergeNode_nodeWF (TrieNode.mk rlf rcn rft rft2 rsc rba rbd rcs)
              _ (ccv + rcv) rcv hc1 hwf1 hrcwf hlfeq
              (by simp [TrieNode.count, hrcc]) (by omega) hbelc
          have htop := mergeFold_top rcs false
            (c0.increment_count
              (TrieNode.mk rlf rcn rft rft2 rsc rba rbd rcs).cntD)
          have hc2lf : (mergeFold false
              (c0.increment_count
                (TrieNode.mk rlf rcn rft rft2 rsc rba rbd rcs).cntD) rcs).longform
              = c0.longform := by
            rw [htop.2.1, increment_count_longform]
          have hrep := childrenWF_replace hcw hl hc2wf hc2lf
          cases isRoot <;>
            simpa [update_likelihood_children, setChildren_children] using hrep

theorem mergeFold_childrenWF : ∀ (rs : Children) (isRoot : Bool) (l : TrieNode),
    ChildrenWF l.longform l.children → ChildrenWF l.longform rs →
    ChildrenWF l.longform (mergeFold isRoot l rs).children
  | .nil, _, _, hcw, _ => hcw
  | .cons tk rc rest, isRoot, l, hcw, hrs => by
      obtain ⟨hrcwf, hrclf, hrk, hrestwf⟩ := hrs
      rw [mergeFold]
      have h1 := mergeStep_childrenWF isRoot l tk rc hcw hrcwf hrclf
      have hlf := (mergeStep_top isRoot l tk rc).2.1
      have h2 := mergeFold_childrenWF rest isRoot (mergeStep isRoot l tk rc)
        (by rw [hlf]; exact h1) (by rw [hlf]; exact hrestwf)
      rwa [hlf] at h2

/-- A merge step at key `y` commutes with ingesting a candidate whose
first token `x` is a different, already present key: the two operations
touch disjoint children entries, and their likelihood updates on the
shared parent commute. -/
theorem mergeStep_addTokens_comm (isRoot : Bool) (l : TrieNode) (x y : String)
    (rc : TrieNode) (rest : List String) (hxy : y ≠ x) (m : TrieNode)
    (hx : l.children.lookup x = some m) :
    mergeStep isRoot (addTokens isRoot l (x :: rest)) y rc
      = addTokens isRoot (mergeStep isRoot l y rc) (x :: rest) := by
  cases rc with
  | mk rlf rcn rft rft2 rsc rba rbd rcs =>
      cases hy : l.children.lookup y with
      | none =>
          cases isRoot
          · simp only [addTokens, mergeStep, hx, hy, setChildren_children,
              update_likelihood_children, setChildren_setChildren,
              setChildren_update_likelihood,
              Children.lookup_replace_ne l.children y x _ (Ne.symm hxy),
              Children.lookup_snoc_ne l.children x y _ hxy,
              Bool.false_eq_true, if_false]
            rw [replace_snoc_ne l.children x y _ _ (Ne.symm hxy),
              update_likelihood_comm]
          · simp only [addTokens, mergeStep, hx, hy, setChildren_children,
              update_likelihood_children, setChildren_setChildren,
              setChildren_update_likelihood,
              Children.lookup_replace_ne l.children y x _ (Ne.symm hxy),
              Children.lookup_snoc_ne l.children x y _ hxy, if_true]
            rw [replace_snoc_ne l.children x y _ _ (Ne.symm hxy)]
      | some cy =>
          cases isRoot
          · simp only [addTokens, mergeStep, hx, hy, setChildren_children,
              update_likelihood_children, setChildren_setChildren,
              setChildren_update_likelihood,
              Children.lookup_replace_ne l.children y x _ (Ne.symm hxy),
              Children.lookup_replace_ne l.children x y _ hxy,
              Bool.false_eq_true, if_false]
            rw [replace_replace_ne l.children x y _ _ (Ne.symm hxy),
              update_likelihood_comm]
          · simp only [addTokens, mergeStep, hx, hy, setChildren_children,
              update_likelihood_children, setChildren_setChildren,
              setChildren_update_likelihood,
              Children.lookup_replace_ne l.children y x _ (Ne.symm hxy),
              Children.lookup_replace_ne l.children x y _ hxy, if_true]
            rw [replace_replace_ne l.children x y _ _ (Ne.symm hxy)]

/-- Ingesting a candidate rooted at an already-merged key `x` commutes
with the remaining iterations of the child loop (whose keys differ from
`x`). -/
theorem mergeFold_addTokens_comm : ∀ (post : Children) (isRoot : Bool)
    (l : TrieNode) (x : String) (rest : List String),
    post.hasKey x = false → (l.children.lookup x).isSome = true →
    mergeFold isRoot (addTokens isRoot l (x :: rest)) post
      = addTokens isRoot (mergeFold isRoot l post) (x :: rest)
  | .nil, _, _, _, _, _, _ => rfl
  | .cons y rc post', isRoot, l, x, rest, hk, hx => by
      simp only [Children.hasKey_cons, Bool.or_eq_false_iff] at hk
      have hyx : y ≠ x := by simpa using hk.1
      obtain ⟨m, hm⟩ := Option.isSome_iff_exists.mp hx
      rw [mergeFold, mergeFold,
        mergeStep_addTokens_comm isRoot l x y rc rest hyx m hm]
      exact mergeFold_addTokens_comm post' isRoot (mergeStep isRoot l y rc) x
        rest hk.2
        (by rw [mergeStep_lookup_ne isRoot l y x rc (Ne.symm hyx)]; exact hx)

theorem mergeStep_none (isRoot : Bool) (l : TrieNode) (tk : String)
    (rchild : TrieNode) (h : l.children.lookup tk = none) :
    mergeStep isRoot l tk rchild
      = (if isRoot then l.setChildren (l.children.snoc tk rchild)
         else (l.setChildren (l.children.snoc tk rchild)).update_likelihood
           rchild.cntD rchild.cntD) := by
  cases rchild with
  | mk rlf rcn rft rft2 rsc rba rbd rcs => simp only [mergeStep, h]

theorem mergeStep_some (isRoot : Bool) (l : TrieNode) (tk : String)
    (rchild c : TrieNode) (h : l.children.lookup tk = some c) :
    mergeStep isRoot l tk rchild
      = (if isRoot
         then l.setChildren (l.children.replace tk
           (mergeFold false (c.increment_count rchild.cntD) rchild.children))
         else (l.setChildren (l.children.replace tk
             (mergeFold false (c.increment_count rchild.cntD)
               rchild.children))).update_likelihood
           (c.increment_count rchild.cntD).cntD rchild.cntD) := by
  cases rchild with
  | mk rlf rcn rft rft2 rsc rba rbd rcs =>
      simp only [mergeStep, h]
      rfl

theorem addTokens_cons_none (isRoot : Bool) (n : TrieNode) (x : String)
    (rest : List String) (h : n.children.lookup x = none) :
    addTokens isRoot n (x :: rest)
      = (if isRoot then n else n.update_likelihood 1 1).setChildren
          (n.children.snoc x
            (addTokens false (TrieNode.new (n.longform ++ [x])) rest)) := by
  simp only [addTokens, h]
  cases isRoot <;> simp [update_likelihood_children]

theorem addTokens_cons_some (isRoot : Bool) (n : TrieNode) (x : String)
    (rest : List String) (c : TrieNode) (h : n.children.lookup x = some c) :
    addTokens isRoot n (x :: rest)
      = (if isRoot then n
         else n.update_likelihood (c.increment_count 1).cntD 1).setChildren
          (n.children.replace x (addTokens false (c.increment_count 1) rest)) := by
  simp only [addTokens, h]
  cases isRoot <;> simp [update_likelihood_children]

/-- The key commutation at a shared first token `x`: merging the
`x`-subtree of a right trie that has just ingested `rest` below `x`
equals merging the old subtree and then ingesting `x :: rest`.  The
induction hypothesis `IH` supplies the same commutation for the shorter
suffix `rest`. -/
theorem mergeStep_addTokens_same (rest : List String)
    (IH : ∀ t s : TrieNode, t.longform = s.longform →
      ChildrenWF t.longform t.children → ChildrenWF s.longform s.children →
      mergeFold false t (addTokens false s rest).children
        = addTokens false (mergeFold false t s.children) rest)
    (isRoot : Bool) (l : TrieNode) (x : String) (cs0 : TrieNode)
    (hcw : ChildrenWF l.longform l.children)
    (hs0 : NodeWF cs0) (hslf : cs0.longform = l.longform ++ [x]) :
    mergeStep isRoot l x (addTokens false (cs0.increment_count 1) rest)
      = addTokens isRoot (mergeStep isRoot l x cs0) (x :: rest) := by
  obtain ⟨scv, hscnt, hscv1, -, -, -, -, -, -, hscw⟩ := nodeWF_elim hs0
  have hinc1 : (cs0.increment_count 1).count = some (scv + 1) :=
    increment_count_count cs0 1 scv hscnt
  have hcAc : (addTokens false (cs0.increment_count 1) rest).count
      = some (scv + 1) := by
    rw [(addTokens_top rest false (cs0.increment_count 1)).1, hinc1]
  have hcAD : (addTokens false (cs0.increment_count 1) rest).cntD = scv + 1 :=
    cntD_some hcAc
  have hs0D : cs0.cntD = scv := cntD_some hscnt
  have hincD : (cs0.increment_count 1).cntD = scv + 1 := cntD_some hinc1
  cases hlx : l.children.lookup x with
  | none =>
      have hkey : l.children.hasKey x = false := hasKey_false_of_lookup_none hlx
      rw [mergeStep_none isRoot l x _ hlx, mergeStep_none isRoot l x cs0 hlx]
      cases isRoot
      · simp only [Bool.false_eq_true, if_false]
        have hMx : (((l.setChildren (l.children.snoc x cs0)).update_likelihood
            cs0.cntD cs0.cntD)).children.lookup x = some cs0 := by
          rw [update_likelihood_children, setChildren_children]
          exact Children.lookup_snoc_self l.children x cs0 hkey
        rw [addTokens_cons_some false _ x rest cs0 hMx]
        simp only [Bool.false_eq_true, if_false, setChildren_update_likelihood,
          setChildren_setChildren, update_likelihood_children,
          setChildren_children]
        rw [replace_snoc_self l.children x cs0 _ hkey]
        rw [hcAD, hs0D, hincD, update_likelihood_batch l scv scv]
      · simp only [if_true]
        have hMx : ((l.setChildren (l.children.snoc x cs0))).children.lookup x
            = some cs0 := by
          rw [setChildren_children]
          exact Children.lookup_snoc_self l.children x cs0 hkey
        rw [addTokens_cons_some true _ x rest cs0 hMx]
        simp only [if_true, setChildren_setChildren, setChildren_children]
        rw [replace_snoc_self l.children x cs0 _ hkey]
  | some ct =>
      obtain ⟨hctwf, hctlf⟩ := childrenWF_lookup hcw hlx
      obtain ⟨k, hkc, hk1, -, -, -, -, -, -, hctcw⟩ := nodeWF_elim hctwf
      have hchain : mergeFold false (ct.increment_count (scv + 1))
            (addTokens false (cs0.increment_count 1) rest).children
          = addTokens false
              ((mergeFold false (ct.increment_count scv)
                cs0.children).increment_count 1) rest := by
        have e1 : ct.increment_count (scv + 1)
            = (ct.increment_count scv).increment_count 1 :=
          (increment_count_add ct scv 1).symm
        have hlf1 : (ct.increment_count (scv + 1)).longform
            = (cs0.increment_count 1).longform := by
          rw [increment_count_longform, increment_count_longform, hctlf, hslf]
        have hcw1 : ChildrenWF (ct.increment_count (scv + 1)).longform
            (ct.increment_count (scv + 1)).children := by
          rw [increment_count_longform, increment_count_children]
          exact hctcw
        have hcw2 : ChildrenWF (cs0.increment_count 1).longform
            (cs0.increment_count 1).children := by
          rw [increment_count_longform, increment_count_children]
          exact hscw
        rw [IH (ct.increment_count (scv + 1)) (cs0.increment_count 1)
          hlf1 hcw1 hcw2]
        rw [increment_count_children, e1, mergeFold_increment]
      have hc2cnt : (mergeFold false (ct.increment_count scv)
          cs0.children).count = some (k + scv) := by
        rw [(mergeFold_top cs0.children false (ct.increment_count scv)).1,
          increment_count_count ct scv k hkc]
      have hc2incD : ((mergeFold false (ct.increment_count scv)
          cs0.children).increment_count 1).cntD = k + scv + 1 :=
        cntD_some (increment_count_count _ 1 (k + scv) hc2cnt)
      have hc1AD : (ct.increment_count (scv + 1)).cntD = k + scv + 1 := by
        rw [cntD_some (increment_count_count ct (scv + 1) k hkc)]
        ring
      have hc1D : (ct.increment_count scv).cntD = k + scv :=
        cntD_some (increment_count_count ct scv k hkc)
      rw [mergeStep_some isRoot l x _ ct hlx, mergeStep_some isRoot l x cs0 ct hlx]
      rw [hcAD, hs0D]
      cases isRoot
      · simp only [Bool.false_eq_true, if_false]
        have hMx : (((l.setChildren (l.children.replace x
            (mergeFold false (ct.increment_count scv)
              cs0.children))).update_likelihood
            (ct.increment_count scv).cntD scv)).children.lookup x
            = some (mergeFold false (ct.increment_count scv) cs0.children) := by
          rw [update_likelihood_children, setChildren_children]
          exact Children.lookup_replace_self l.children x _ ct hlx
        rw [addTokens_cons_some false _ x rest _ hMx]
        simp only [Bool.false_eq_true, if_false, setChildren_update_likelihood,
          setChildren_setChildren, update_likelihood_children,
          setChildren_children]
        rw [replace_replace_self, hchain, hc1AD, hc1D, hc2incD,
          update_likelihood_batch l (k + scv) scv]
      · simp only [if_true]
        have hMx : ((l.setChildren (l.children.replace x
            (mergeFold false (ct.increment_count scv)
              cs0.children)))).children.lookup x
            = some (mergeFold false (ct.increment_count scv) cs0.children) := by
          rw [setChildren_children]
          exact Children.lookup_replace_self l.children x _ ct hlx
        rw [addTokens_cons_some true _ x rest _ hMx]
        simp only [if_true, setChildren_setChildren, setChildren_children]
        rw [replace_replace_self, hchain]

/-- Folding the child loop over a children map whose `x`-entry has just
ingested `rest` equals folding over the old map and then ingesting
`x :: rest`. -/
theorem mergeFold_replace_add (rest : List String)
    (IH : ∀ t s : TrieNode, t.longform = s.longform →
      ChildrenWF t.longform t.children → ChildrenWF s.longform s.children →
      mergeFold false t (addTokens false s rest).children
        = addTokens false (mergeFold false t s.children) rest) :
    ∀ (cs : Children) (isRoot : Bool) (l : TrieNode) (x : String)
    (cs0 : TrieNode),
    ChildrenWF l.longform l.children → ChildrenWF l.longform cs →
    cs.lookup x = some cs0 →
    mergeFold isRoot l
        (cs.replace x (addTokens false (cs0.increment_count 1) rest))
      = addTokens isRoot (mergeFold isRoot l cs) (x :: rest)
  | .nil, _, _, _, _, _, _, hl => by simp [Children.lookup] at hl
  | .cons tk c cs', isRoot, l, x, cs0, hcw, hcs, hl => by
      obtain ⟨hcwf, hclf, hck, hcs'⟩ := hcs
      by_cases htx : tk = x
      · subst htx
        simp only [Children.lookup, if_pos rfl] at hl
        injection hl with hl
        subst hl
        simp only [Children.replace, if_pos rfl, if_true]
        rw [mergeFold, mergeFold,
          mergeStep_addTokens_same rest IH isRoot l tk c hcw hcwf hclf]
        exact mergeFold_addTokens_comm cs' isRoot (mergeStep isRoot l tk c) tk
          rest hck (mergeStep_lookup_self isRoot l tk c)
      · simp only [Children.lookup, htx, if_false] at hl
        simp only [Children.replace, htx, if_false]
        rw [mergeFold, mergeFold]
        have hstep := mergeStep_childrenWF isRoot l tk c hcw hcwf hclf
        have hlf2 := (mergeStep_top isRoot l tk c).2.1
        exact mergeFold_replace_add rest IH cs' isRoot (mergeStep isRoot l tk c)
          x cs0 (by rw [hlf2]; exact hstep) (by rw [hlf2]; exact hcs') hl

/-- Central commutation: merging a trie that has just ingested candidate
`p` equals merging the old trie and then ingesting `p`, for corresponding
well-formed nodes. -/
theorem merge_addTokens_comm : ∀ (p : List String) (isRoot : Bool)
    (t s : TrieNode), t.longform = s.longform →
    ChildrenWF t.longform t.children → ChildrenWF s.longform s.children →
    mergeFold isRoot t (addTokens isRoot s p).children
      = addTokens isRoot (mergeFold isRoot t s.children) p
  | [], _, _, _, _, _, _ => rfl
  | x :: rest, isRoot, t, s, hlf, hct, hcs => by
      have IH : ∀ t' s' : TrieNode, t'.longform = s'.longform →
          ChildrenWF t'.longform t'.children →
          ChildrenWF s'.longform s'.children →
          mergeFold false t' (addTokens false s' rest).children
            = addTokens false (mergeFold false t' s'.children) rest :=
        fun t' s' h1 h2 h3 => merge_addTokens_comm rest false t' s' h1 h2 h3
      cases hx : s.children.lookup x with
      | some cs0 =>
          rw [addTokens_cons_some isRoot s x rest cs0 hx, setChildren_children]
          exact mergeFold_replace_add rest IH s.children isRoot t x cs0 hct
            (by rw [hlf]; exact hcs) hx
      | none =>
          rw [addTokens_cons_none isRoot s x rest hx, setChildren_children,
            mergeFold_snoc]
          have hT'lf : (mergeFold isRoot t s.children).longform = t.longform :=
            (mergeFold_top s.children isRoot t).2.1
          have hcwT : ChildrenWF (mergeFold isRoot t s.children).longform
              (mergeFold isRoot t s.children).children := by
            rw [hT'lf]
            exact mergeFold_childrenWF s.children isRoot t hct
              (by rw [hlf]; exact hcs)
          have hchD : (addTokens false (TrieNode.new (s.longform ++ [x]))
              rest).cntD = 1 := by
            rw [TrieNode.cntD, (addTokens_top rest false _).1]
            rfl
          cases hx2 : (mergeFold isRoot t s.children).children.lookup x with
          | none =>
              rw [mergeStep_none isRoot _ x _ hx2,
                addTokens_cons_none isRoot _ x rest hx2, hT'lf, hlf, hchD]
              cases isRoot
              · simp only [Bool.false_eq_true, if_false,
                  setChildren_update_likelihood]
              · simp only [if_true]
          | some ct =>
              obtain ⟨hctwf, hctlf⟩ := childrenWF_lookup hcwT hx2
              obtain ⟨-, -, -, -, -, -, -, -, -, hctcw⟩ := nodeWF_elim hctwf
              rw [mergeStep_some isRoot _ x _ ct hx2,
                addTokens_cons_some isRoot _ x rest ct hx2, hchD]
              have hsub : mergeFold false (ct.increment_count 1)
                  (addTokens false (TrieNode.new (s.longform ++ [x]))
                    rest).children
                  = addTokens false (ct.increment_count 1) rest := by
                have h1 := IH (ct.increment_count 1)
                  (TrieNode.new (s.longform ++ [x]))
                  (by rw [increment_count_longform, hctlf, hT'lf, hlf]; rfl)
                  (by rw [increment_count_longform, increment_count_children]
                      exact hctcw)
                  trivial
                rw [h1]
                rfl
              rw [hsub]
              cases isRoot
              · simp only [Bool.false_eq_true, if_false,
                  setChildren_update_likelihood]
              · simp only [if_true]

theorem rootWF_longform {t : TrieNode} (h : RootWF t) : t.longform = [] := by
  cases t; exact h.1

theorem rootWF_childrenWF {t : TrieNode} (h : RootWF t) :
    ChildrenWF [] t.children := by
  cases t; exact h.2.2.2.2.2.2.2

/-- The trie built by `process_texts`: fold `_add` over the stemmed,
reversed candidates. -/
theorem process_texts_trie (st : String → String) :
    ∀ (cands : List (List String)) (m : AdeftMiner),
    (m.process_texts st cands).internal_trie
      = cands.foldl
          (fun acc c => addTokens true acc ((c.map st).reverse))
          m.internal_trie := by
  have haux : ∀ (cands : List (List String)) (m : AdeftMiner),
      (cands.foldl (fun acc c => acc.addCand st c) m).internal_trie
        = cands.foldl
            (fun acc c => addTokens true acc ((c.map st).reverse))
            m.internal_trie := by
    intro cands
    induction cands with
    | nil => intro m; rfl
    | cons c cs ih =>
        intro m
        simp only [List.foldl_cons]
        rw [ih (m.addCand st c)]
        rfl
  intro cands m
  exact haux cands m

theorem rootWF_foldAdd (st : String → String) :
    ∀ (cands : List (List String)) (t : TrieNode), RootWF t →
    RootWF (cands.foldl
      (fun acc c => addTokens true acc ((c.map st).reverse)) t)
  | [], _, h => h
  | c :: cs, t, h => by
      simp only [List.foldl_cons]
      exact rootWF_foldAdd st cs _ (addTokens_rootWF ((c.map st).reverse) t h)

/-- Merging commutes with a whole corpus of ingestions on the right-hand
trie. -/
theorem mergeFold_foldAdd (st : String → String) :
    ∀ (B : List (List String)) (tA tB : TrieNode),
    RootWF tA → RootWF tB →
    mergeFold true tA
        (B.foldl (fun acc c => addTokens true acc ((c.map st).reverse))
          tB).children
      = B.foldl (fun acc c => addTokens true acc ((c.map st).reverse))
          (mergeFold true tA tB.children)
  | [], _, _, _, _ => rfl
  | c :: B', tA, tB, hA, hB => by
      simp only [List.foldl_cons]
      rw [mergeFold_foldAdd st B' tA (addTokens true tB ((c.map st).reverse))
        hA (addTokens_rootWF ((c.map st).reverse) tB hB)]
      rw [merge_addTokens_comm ((c.map st).reverse) true tA tB
        (by rw [rootWF_longform hA, rootWF_longform hB])
        (by rw [rootWF_longform hA]; exact rootWF_childrenWF hA)
        (by rw [rootWF_longform hB]; exact rootWF_childrenWF hB)]

/-- `get_longforms` reads a miner only through its shortform, staleness
flag and trie. -/
theorem get_longforms_noabs_congr (mf : String → String)
    (cutoff smoothing_param : ℚ) (m1 m2 : AdeftMiner)
    (h1 : m1.shortform = m2.shortform)
    (h2 : m1.scores_propagated = m2.scores_propagated)
    (h3 : m1.internal_trie = m2.internal_trie) :
    get_longforms_noabs mf cutoff smoothing_param m1
      = get_longforms_noabs mf cutoff smoothing_param m2 := by
  simp only [get_longforms_noabs, h1, h2, h3]

theorem process_texts_shortform (st : String → String) :
    ∀ (cands : List (List String)) (m : AdeftMiner),
    (m.process_texts st cands).shortform = m.shortform := by
  have haux : ∀ (cands : List (List String)) (m : AdeftMiner),
      (cands.foldl (fun acc c => acc.addCand st c) m).shortform
        = m.shortform := by
    intro cands
    induction cands with
    | nil => intro m; rfl
    | cons c cs ih =>
        intro m
        simp only [List.foldl_cons]
        rw [ih]
        rfl
  intro cands m
  exact haux cands m

/-- C2: for any two corpora `A` and `B` and a fixed shortform, processing
`A` then `B` in a single miner and processing `A` and `B` in two separate
miners merged with `update`/`compose` yield literally equal tries — hence
identical `count`, `sum_ft`, `sum_ft2` and (exact-arithmetic) `score` at
every corresponding node — and identical ranked candidate lists from
`get_longforms` after propagation, for every stemmer rendering, cutoff
and smoothing parameter. -/
theorem corpus_merge_equivalence (st : String → String) (sf : String)
    (w : Nat) (A B : List (List String)) :
    (((minerInit sf w).process_texts st A).process_texts st B).internal_trie
      = (((minerInit sf w).process_texts st A).update
          ((minerInit sf w).process_texts st B)).internal_trie
    ∧ ∀ (mf : String → String) (cutoff smoothing_param : ℚ),
        get_longforms_noabs mf cutoff smoothing_param
            (((minerInit sf w).process_texts st A).process_texts st B)
          = get_longforms_noabs mf cutoff smoothing_param
            (((minerInit sf w).process_texts st A).update
              ((minerInit sf w).process_texts st B)) := by
  have hAtrie : ((minerInit sf w).process_texts st A).internal_trie
      = A.foldl (fun acc c => addTokens true acc ((c.map st).reverse))
          rootNode := process_texts_trie st A (minerInit sf w)
  have hArootWF : RootWF ((minerInit sf w).process_texts st A).internal_trie := by
    rw [hAtrie]
    exact rootWF_foldAdd st A rootNode rootWF_rootNode
  have htrie :
      (((minerInit sf w).process_texts st A).process_texts st B).internal_trie
        = (((minerInit sf w).process_texts st A).update
            ((minerInit sf w).process_texts st B)).internal_trie := by
    rw [process_texts_trie st B ((minerInit sf w).process_texts st A)]
    show _ = mergeFold true ((minerInit sf w).process_texts st A).internal_trie
        ((minerInit sf w).process_texts st B).internal_trie.children
    rw [process_texts_trie st B (minerInit sf w)]
    rw [mergeFold_foldAdd st B
      ((minerInit sf w).process_texts st A).internal_trie
      (minerInit sf w).internal_trie hArootWF
      (show RootWF (minerInit sf w).internal_trie from rootWF_rootNode)]
    rfl
  refine ⟨htrie, fun mf cutoff sp =>
    get_longforms_noabs_congr mf cutoff sp _ _ ?_ rfl htrie⟩
  rw [process_texts_shortform st B ((minerInit sf w).process_texts st A)]
  rfl

end Adeft
